import Mathlib

/-!
# Verification of the classbench-mapper core against its specification

This file gives a shallow embedding, in Lean 4, of the core operations of the
classbench-mapper repository:

* `IntegerIntervalSet.remove` and `random_value` (src/integer-interval-set.h),
* the per-field mapping pipeline `process_field` / `run` / `gen_packet`
  (src/mapping.h) and `gen_packet_in_rule` (src/util-cb-map.cpp),
* the rotating three-slot reader/writer structure of src/cbreader.cpp
  (`get_pending_vec`, `acquire_active`, `release_active`, `cbreader_update`,
  `cbreader_select_headers`, `cbreader_prepare_rules`), modelled as a small-step
  machine over interleaved reader/writer events,
* the binary corpus writer `mapping::save_binary_format` and the loader
  `reader::read` (src/reader.h), modelled over a typed token stream.

Machine integers (`uint32_t`) are modelled as `Nat`; every spot where the C++
source can wrap around is noted next to the corresponding definition.
Randomness (the `random_core` mt19937 generator) is modelled as an explicit
stream of draw values threaded through the computations, so that every theorem
quantifies over all possible random sequences.
-/

namespace CBMapper

/-- An inclusive integer interval, mirroring `IntegerIntervalSet::range`
(src/integer-interval-set.h). -/
structure Range where
  low : Nat
  high : Nat
deriving DecidableEq

/-- The set of values covered by a list of intervals. -/
def InSet (l : List Range) (v : Nat) : Prop :=
  ∃ r ∈ l, r.low ≤ v ∧ v ≤ r.high

instance (l : List Range) (v : Nat) : Decidable (InSet l v) := by
  unfold InSet; infer_instance

/-- Boolean test that consecutive intervals are strictly separated
(`a.high < b.low`), i.e. the list is sorted and pairwise disjoint. -/
def sortedDisjointB : List Range → Bool
  | [] => true
  | [_] => true
  | a :: b :: t => decide (a.high < b.low) && sortedDisjointB (b :: t)

/-- The stored interval list is sorted and pairwise disjoint. -/
def SortedDisjoint (l : List Range) : Prop := sortedDisjointB l = true

instance (l : List Range) : Decidable (SortedDisjoint l) := by
  unfold SortedDisjoint; infer_instance

/-! ## IntegerIntervalSet.remove

Shallow embedding of `IntegerIntervalSet::remove(low, high)`
(src/integer-interval-set.h, lines 56-101).  The C++ loop walks the interval
list with a `left_cursor` (initially `low`); `right_cursor` and `maximum` are
both initialised to `high` and never modified afterwards, so they are passed
here as the fixed parameter `high` (the two source conditionals that compare
them, `if (max > maximum)` and `if (right_cursor > maximum)`, are kept
verbatim below even though they can never fire).  The loop body can insert one
interval right after the current one and continue iterating from it, so the
recursion is driven by explicit fuel; `remove` supplies `length + 1` fuel,
which is always sufficient (an inserted interval is processed by the `break`
test on the very next step).

The source mutates `self` in place and returns the intersection; here the
result pair is `(self after removal, returned intersection)`.

Unsigned wrap-around notes: `r.high = min - 1` can wrap in C++ when `min == 0`,
but the very next condition (`min == 0 || r.high < r.low`) erases the interval
in exactly that case, so the wrapped value is never kept; `left_cursor = max+1`
can only wrap when `max = 2^32 - 1`, in which case the interval list holds no
further element (all bounds are below 2^32), so the loop body is never entered
again on either side.  Hence over well-formed 32-bit inputs the `Nat` model
agrees with the C++ code. -/
def removeGo (high : Nat) : Nat → Nat → List Range → List Range × List Range
  | 0, _, l => (l, [])
  | _ + 1, _, [] => ([], [])
  | fuel + 1, lc, r :: rest =>
    if r.high < lc then
      -- Skip intervals in case they do not intersect the rule
      let p := removeGo high fuel lc rest
      (r :: p.1, p.2)
    else if high < r.low then
      -- right_cursor < r.low: break, keeping the remaining intervals
      (r :: rest, [])
    else
      let mn := max lc r.low
      let mx0 := min high r.high
      let mx := if mx0 > high then high else mx0
      -- Additional interval inserted after the current one when required
      let inserted := if mx < r.high then [Range.mk (mx + 1) r.high] else []
      -- The current interval shrinks to [r.low, mn-1], or is erased
      let kept := if mn = 0 ∨ mn - 1 < r.low then [] else [Range.mk r.low (mn - 1)]
      if high > high then
        (kept ++ inserted ++ rest, [Range.mk mn mx])
      else
        let p := removeGo high fuel (mx + 1) (inserted ++ rest)
        (kept ++ p.1, Range.mk mn mx :: p.2)

namespace IntegerIntervalSet

/-- `IntegerIntervalSet::remove(low, high)`: returns
`(self after subtraction, intersection of self with [low, high])`. -/
def remove (l : List Range) (low high : Nat) : List Range × List Range :=
  removeGo high (l.length + 1) low l

end IntegerIntervalSet

/-- The full behavioural specification of one `removeGo` pass with cursor `lc`:
the returned second component covers exactly the values of `l` inside
`[lc, high]`, the first component covers exactly the values of `l` outside it,
staying a sorted disjoint list of valid intervals, each contained in some
original interval. -/
def RSpec (lc high : Nat) (l s o : List Range) : Prop :=
  (∀ v, InSet o v ↔ InSet l v ∧ lc ≤ v ∧ v ≤ high) ∧
  (∀ v, InSet s v ↔ InSet l v ∧ ¬(lc ≤ v ∧ v ≤ high)) ∧
  SortedDisjoint s ∧
  (∀ x ∈ s, x.low ≤ x.high) ∧
  (∀ x ∈ s, ∃ y ∈ l, y.low ≤ x.low ∧ x.high ≤ y.high) ∧
  (∀ x ∈ o, x.low ≤ x.high)

/-! ## Randomness model -/
/-- The mt19937 generator of `random_core` (src/random.h), modelled as an
arbitrary stream of values with a position.  `next` masks the drawn value to
32 bits, matching the `uniform_int_distribution<uint32_t>(0, 0xFFFFFFFF)`
behind `random_core::random_uint32()`. -/
structure Rng where
  vals : Nat → Nat
  idx : Nat

def Rng.next (g : Rng) : Nat × Rng :=
  (g.vals g.idx % 4294967296, ⟨g.vals, g.idx + 1⟩)

/-- A stream that always draws 0, used in concrete instantiations. -/
def zeroRng : Rng := ⟨fun _ => 0, 0⟩

/-- `gen_uniform_random_uint32(low, high)` (src/integer-interval-set.h):
`low == high` short-circuits without drawing; otherwise the result is
`random_uint32() % (high - low) + low`.  (Hence when `low < high` the value
`high` itself is never produced — an off-by-one in the source that does not
affect containment in `[low, high]`.) -/
def gen_uniform_random_uint32 (low high : Nat) (g : Rng) : Nat × Rng :=
  if low = high then (low, g)
  else
    let p := g.next
    (p.1 % (high - low) + low, p.2)

/-- `random_core::random_uint32(low, high)` (src/random.h) computes the same
expression as `gen_uniform_random_uint32`. -/
def random_uint32_range (low high : Nat) (g : Rng) : Nat × Rng :=
  if low = high then (low, g)
  else
    let p := g.next
    (p.1 % (high - low) + low, p.2)

/-- `IntegerIntervalSet::random_value()` (src/integer-interval-set.h): an empty
set yields the sentinel 0; otherwise pick an interval index by
`gen_uniform_random_uint32(0, size - 1)` (the source walks the list to that
index) and then a value inside that interval. -/
def random_value (l : List Range) (g : Rng) : Nat × Rng :=
  if l.length = 0 then (0, g)
  else
    let p := gen_uniform_random_uint32 0 (l.length - 1) g
    let intvl := l.getD p.1 ⟨0, 0⟩
    gen_uniform_random_uint32 intvl.low intvl.high p.2

/-! ## mapping::process_field (src/mapping.h, lines 83-120)

One worker processes all rules for a single field `f`.  `frs` is the list of
that field's `[low, high]` ranges, in priority order (index 0 = highest
priority); `num` is the number of header values per rule.  The worker owns a
private `IntegerIntervalSet` spanning the full 32-bit domain; for each rule it
claims `interval.remove(lo, hi)`; if the claimed sub-interval is non-empty the
`num` values are drawn from it by `random_value`, otherwise they are drawn from
the raw rule range by `random_core::random_uint32(lo, hi)` and the rule index
joins the per-field `non_unique` set.  The `percent` progress indicator has no
data effect and is omitted.  `non_unique` is produced in increasing index
order, matching `std::set<int>` iteration. -/
structure PFRes where
  vals : List (List Nat)
  nonUnique : List Nat
  rng : Rng

/-- The inner `for (int j = 0; j < num; ++j)` loop: draw `num` values with `f`,
threading the generator. -/
def fillN (f : Rng → Nat × Rng) : Nat → Rng → List Nat × Rng
  | 0, g => ([], g)
  | k + 1, g =>
    let p := f g
    let q := fillN f k p.2
    (p.1 :: q.1, q.2)

def process_field_go (num : Nat) : List Range → Nat → List Range → Rng → PFRes
  | [], _, _, g => ⟨[], [], g⟩
  | fr :: rest, i, interval, g =>
    let pr := IntegerIntervalSet.remove interval fr.low fr.high
    let vj := if 0 < pr.2.length then fillN (random_value pr.2) num g
              else fillN (random_uint32_range fr.low fr.high) num g
    let restR := process_field_go num rest (i + 1) pr.1 vj.2
    ⟨vj.1 :: restR.vals,
     (if 0 < pr.2.length then [] else [i]) ++ restR.nonUnique,
     restR.rng⟩

def process_field (frs : List Range) (num : Nat) (g : Rng) : PFRes :=
  process_field_go num frs 0 [⟨0, 4294967295⟩] g

/-! ## mapping::run and mapping::gen_packet (src/mapping.h) -/
/-- `mapping::hdr_matches_rule` (src/mapping.h, lines 27-40): true iff every
field value of `hdr` lies inside the corresponding range of rule `ri`. -/
def hdr_matches_rule (F : Nat) (rules : List (List Range)) (ri : Nat)
    (hdr : List Nat) : Bool :=
  (List.range F).all (fun j =>
    decide (((rules.getD ri []).getD j ⟨0, 0⟩).low ≤ hdr.getD j 0) &&
    decide (hdr.getD j 0 ≤ ((rules.getD ri []).getD j ⟨0, 0⟩).high))

/-- The field-drawing loop of `mapping::gen_packet` (src/mapping.h, lines
55-61): each field is drawn by `random_core::random_uint32(low, high)` and
immediately re-checked against the range; an out-of-range draw aborts the
whole call with `false`. -/
def gen_packet_draw : List Range → Rng → Bool × List Nat × Rng
  | [], g => (true, [], g)
  | fr :: rest, g =>
    let p := random_uint32_range fr.low fr.high g
    if p.1 < fr.low ∨ fr.high < p.1 then (false, [p.1], p.2)
    else
      let q := gen_packet_draw rest p.2
      (q.1, p.1 :: q.2.1, q.2.2)

/-- `mapping::gen_packet` (src/mapping.h, lines 47-77), recursing over the
remaining tries (`TRIES = 5` at the call site).  Faithful to the source: the
previous-rule loop runs `r` over `[0, rule_idx - 1)` — skipping rule
`rule_idx - 1` — and its body tests `hdr_matches_rule(rule_db, rule_idx, out)`,
i.e. the candidate against rule `rule_idx` itself rather than against `r`. -/
def gen_packet (F : Nat) (rules : List (List Range)) (ri : Nat) :
    Nat → Rng → Bool × List Nat × Rng
  | 0, g => (false, List.replicate F 0, g)
  | t + 1, g =>
    let d := gen_packet_draw (rules.getD ri []) g
    if d.1 = false then (false, d.2.1, d.2.2)
    else
      let prev := (List.range (ri - 1)).any
        (fun _ => hdr_matches_rule F rules ri d.2.1)
      if prev then gen_packet F rules ri t d.2.2
      else (true, d.2.1, d.2.2)

/-- `std::set_intersection` on increasing id lists, as used to fold the
per-field `non_unique` sets (src/mapping.h, lines 184-193). -/
def set_intersection (a b : List Nat) : List Nat :=
  a.filter (fun x => decide (x ∈ b))

/-- The fold `non_unique := non_unqiue_field[0]` then intersect with each
further field's set, mirroring src/mapping.h lines 184-193. -/
def fold_non_unique : List (List Nat) → List Nat
  | [] => []
  | h :: t => t.foldl set_intersection h

/-- The per-field worker result for field `f` as spawned by `mapping::run`:
each worker owns field `f`'s ranges of all rules and its own draw stream. -/
def field_result (rules : List (List Range)) (num : Nat) (rngs : List Rng)
    (f : Nat) : PFRes :=
  process_field (rules.map (fun r => r.getD f ⟨0, 0⟩)) num (rngs.getD f zeroRng)

structure RunRes where
  rmap : List (List (List Nat))
  unreachable : Nat
  rng : Rng

/-- The `non_unique` set of `mapping::run`: the intersection over all fields
of the per-field `non_unique` sets (src/mapping.h, lines 184-193). -/
def run_nu (F : Nat) (rules : List (List Range)) (num : Nat)
    (rngs : List Rng) : List Nat :=
  fold_non_unique ((List.range F).map
    (fun f => (field_result rules num rngs f).nonUnique))

/-- The `rmap` contents after the unique-packet update loop of `mapping::run`
(lines 158-161 and 195-206): every row starts as `num` zero-filled headers
(`rmap[i].resize(num)` value-initialises `packet_header`); the loop then
overwrites every field of every header of the rows outside `non_unique`, while
rows of non-unique rules keep their zero placeholders (the source has no code
dropping them). -/
def run_rmap1 (F : Nat) (rules : List (List Range)) (num : Nat)
    (rngs : List Rng) : List (List (List Nat)) :=
  (List.range rules.length).map (fun i =>
    if i ∈ run_nu F rules num rngs then
      List.replicate num (List.replicate F 0)
    else (List.range num).map (fun j =>
      (List.range F).map (fun f =>
        ((field_result rules num rngs f).vals.getD i []).getD j 0)))

/-- One iteration of the non-unique retry loop of `mapping::run` (lines
213-223): `gen_packet` with `TRIES = 5`; on success the packet is appended to
the rule's row (`rmap[idx].push_back(packet)`), otherwise `unreachable_rules`
is incremented. -/
def run_retry_step (F : Nat) (rules : List (List Range))
    (acc : List (List (List Nat)) × Nat × Rng) (idx : Nat) :
    List (List (List Nat)) × Nat × Rng :=
  if (gen_packet F rules idx 5 acc.2.2).1 then
    (acc.1.set idx
        (acc.1.getD idx [] ++ [(gen_packet F rules idx 5 acc.2.2).2.1]),
      acc.2.1, (gen_packet F rules idx 5 acc.2.2).2.2)
  else (acc.1, acc.2.1 + 1, (gen_packet F rules idx 5 acc.2.2).2.2)

/-- `mapping::run` (src/mapping.h, lines 143-244), with the per-field thread
fan-out sequentialised (the workers share no mutable data; each observes its
own draw stream, element `f` of `rngs`; the retry loop then uses `g2`).
`num = flow_num / rule_db.size()`.  The returned `unreachable` count is only
printed by the source (`MESSAGE`), never returned to the caller. -/
def run_mapping (F : Nat) (rules : List (List Range)) (flowNum : Nat)
    (rngs : List Rng) (g2 : Rng) : RunRes :=
  ⟨((run_nu F rules (flowNum / rules.length) rngs).foldl (run_retry_step F rules)
      (run_rmap1 F rules (flowNum / rules.length) rngs, 0, g2)).1,
   ((run_nu F rules (flowNum / rules.length) rngs).foldl (run_retry_step F rules)
      (run_rmap1 F rules (flowNum / rules.length) rngs, 0, g2)).2.1,
   ((run_nu F rules (flowNum / rules.length) rngs).foldl (run_retry_step F rules)
      (run_rmap1 F rules (flowNum / rules.length) rngs, 0, g2)).2.2⟩

/-- The final verification pass of `mapping::run` (src/mapping.h, lines
232-243): every header of every row must match its own rule; on failure the
source prints an error and calls `exit(1)`, aborting the run. -/
def mapping_check (F : Nat) (rules : List (List Range))
    (rmap : List (List (List Nat))) : Bool :=
  (List.range rmap.length).all (fun i =>
    (rmap.getD i []).all (fun hdr => hdr_matches_rule F rules i hdr))

/-! ## gen_packet_in_rule (src/util-cb-map.cpp, lines 83-145)

The reduction-phase retry of the `util-cb-map` tool, with `F = 5` fixed by the
source (`static constexpr int F = 5`).  Field 0 (ip-proto) is overridden to
17/6/1 when the rule's range allows it.  Faithful to the source: the
higher-priority check loop runs `r` over `[0, rule_idx - 1)`, skipping rule
`rule_idx - 1`. -/
/-- The field-drawing loop (lines 92-109): draw each field uniformly from the
rule's range, override field 0 towards 17/6/1 when in range, and abort the
whole call with `false` if the value falls outside the rule's range. -/
def gpir_draw : List Range → Nat → Rng → Bool × List Nat × Rng
  | [], _, g => (true, [], g)
  | fr :: rest, j, g =>
    let p := gen_uniform_random_uint32 fr.low fr.high g
    let v := if j = 0 then
        (if fr.low ≤ 17 ∧ 17 ≤ fr.high then 17
         else if fr.low ≤ 6 ∧ 6 ≤ fr.high then 6
         else if fr.low ≤ 1 ∧ 1 ≤ fr.high then 1
         else p.1)
      else p.1
    if v < fr.low ∨ fr.high < v then (false, [v], p.2)
    else
      let q := gpir_draw rest (j + 1) p.2
      (q.1, v :: q.2.1, q.2.2)

/-- The higher-priority containment loop (lines 111-133): a candidate matches
rule `r` iff all five field values sit inside rule `r`'s ranges; the loop,
faithful to the source, only visits `r ∈ [0, rule_idx - 1)`. -/
def gpir_prev (rules : List (List Range)) (ri : Nat) (pkt : List Nat) : Bool :=
  (List.range (ri - 1)).any (fun r =>
    (List.range 5).all (fun j =>
      decide (((rules.getD r []).getD j ⟨0, 0⟩).low ≤ pkt.getD j 0) &&
      decide (pkt.getD j 0 ≤ ((rules.getD r []).getD j ⟨0, 0⟩).high)))

/-- `gen_packet_in_rule` (lines 83-145): up to `tries` attempts; each attempt
draws a candidate from the rule's own ranges and accepts it unless
`gpir_prev` reports a higher-priority match. -/
def gen_packet_in_rule (rules : List (List Range)) (ri : Nat) :
    Nat → Rng → Bool × List Nat × Rng
  | 0, g => (false, [], g)
  | t + 1, g =>
    let d := gpir_draw (rules.getD ri []) 0 g
    if d.1 = false then (false, d.2.1, d.2.2)
    else if gpir_prev rules ri d.2.1 then gen_packet_in_rule rules ri t d.2.2
    else (true, d.2.1, d.2.2)

/-- A two-rule, five-field database: rule 0 covers the entire domain in every
field; rule 1 is the point (2, 3, 4, 5, 6). -/
def gpirSampleRules : List (List Range) :=
  [List.replicate 5 (Range.mk 0 4294967295),
   [Range.mk 2 2, Range.mk 3 3, Range.mk 4 4, Range.mk 5 5, Range.mk 6 6]]

/-! ## cbreader (src/cbreader.cpp): the rotating three-slot structure

The struct `cbreader` holds three membership vectors `avaialble_rules_v0/1/2`
(the source's spelling), an atomic `version`, and three atomic reader counts
`readers_v0/1/2`.  The model below is a small-step machine over interleaved
reader/writer events (a trace is valid for the protocol exactly when every
event's guard holds when it fires).  Writer events follow the program order of
`cbreader_update` — a `version.fetch_add(1)` followed by a whole-vector copy
of the new active slot into slot `(version + 1) % 3`, modelled element-wise
since `std::vector` assignment is not atomic with respect to concurrent
readers (the copy clears the target, then appends the source elements one by
one) — and of the editing calls (`cbreader_prepare_rules`,
`cbreader_set_all_rules`, `cbreader_clear_rules`), which all go through
`get_pending_vec`: a busy-wait until the reader count of slot `version % 3`
reads zero (the source waits on the ACTIVE slot's count, not on the returned
staging slot's), then a reference to slot `(version + 1) % 3`; the net effect
of the edits is a write of new contents to that slot.  The model records every
staging-slot grant together with the granted slot's reader count at grant
time.  Reader events mirror `cbreader_select_headers`: `acquire_active`, one
sampling iteration per `rRead` (random index into the captured slot, looked up
through `hdrIdx`, skipped when it yields none), and `release_active` with the
captured version.  One modelled reader thread suffices for the claims. -/
structure CbState where
  ver : Nat
  s0 : List Nat
  s1 : List Nat
  s2 : List Nat
  r0 : Int
  r1 : Int
  r2 : Int
  ticket : Option Nat
  observed : List Nat
  grants : List (Nat × Int)
deriving DecidableEq

/-- Slot contents by version (`get_active_vec` selects by `ver % 3`). -/
def CbState.slot (st : CbState) (k : Nat) : List Nat :=
  match k % 3 with
  | 0 => st.s0
  | 1 => st.s1
  | _ => st.s2

def CbState.setSlot (st : CbState) (k : Nat) (l : List Nat) : CbState :=
  match k % 3 with
  | 0 => { st with s0 := l }
  | 1 => { st with s1 := l }
  | _ => { st with s2 := l }

def CbState.readersAt (st : CbState) (k : Nat) : Int :=
  match k % 3 with
  | 0 => st.r0
  | 1 => st.r1
  | _ => st.r2

/-- The staging slot handed out by `get_pending_vec` (lines 35-40): the source
returns `avaialble_rules_v1` when `ver % 3 = 0`, `v2` when `1`, `v0`
otherwise — i.e. slot `(ver + 1) % 3`.  This is also the copy target of
`cbreader_update` (lines 272-276) for the already-bumped version. -/
def pendingSlot (ver : Nat) : Nat :=
  match ver % 3 with
  | 0 => 1
  | 1 => 2
  | _ => 0

/-- `acquire_active` (src/cbreader.cpp, lines 43-53): loads `version`, then a
`switch (ver % 3)` whose cases have no `break` and fall through: case 0
increments all three reader counts, case 1 increments counts 1 and 2, the
default increments only count 2.  Returns the loaded version. -/
def acquire_active (st : CbState) : Nat × CbState :=
  (st.ver,
   match st.ver % 3 with
   | 0 => { st with r0 := st.r0 + 1, r1 := st.r1 + 1, r2 := st.r2 + 1 }
   | 1 => { st with r1 := st.r1 + 1, r2 := st.r2 + 1 }
   | _ => { st with r2 := st.r2 + 1 })

/-- `release_active` (lines 55-63): the same fall-through switch,
decrementing, on the version captured at acquire time. -/
def release_active (st : CbState) (ver : Nat) : CbState :=
  match ver % 3 with
  | 0 => { st with r0 := st.r0 - 1, r1 := st.r1 - 1, r2 := st.r2 - 1 }
  | 1 => { st with r1 := st.r1 - 1, r2 := st.r2 - 1 }
  | _ => { st with r2 := st.r2 - 1 }

inductive CbEv
  | wPend (l : List Nat)
  | wBump
  | wCopyStart
  | wCopyElem
  | rAcq
  | rRead (rnd : Nat)
  | rRel

/-- One interleaving step.  `none` marks an event whose guard does not hold
(a busy-wait that would keep spinning, a read of an empty slot, a reader
protocol violation), so a trace that executes to `some` state is a behaviour
the implementation can exhibit. -/
def cbStep (hdrIdx : Nat → Option Nat) (st : CbState) : CbEv → Option CbState
  | CbEv.wPend l =>
    if st.readersAt st.ver = 0 then
      some { st.setSlot (pendingSlot st.ver) l with
        grants := st.grants ++
          [(pendingSlot st.ver, st.readersAt (pendingSlot st.ver))] }
    else none
  | CbEv.wBump => some { st with ver := st.ver + 1 }
  | CbEv.wCopyStart => some (st.setSlot (pendingSlot st.ver) [])
  | CbEv.wCopyElem =>
    if (st.slot (pendingSlot st.ver)).length < (st.slot st.ver).length then
      some (st.setSlot (pendingSlot st.ver)
        (st.slot (pendingSlot st.ver) ++
          [(st.slot st.ver).getD (st.slot (pendingSlot st.ver)).length 0]))
    else none
  | CbEv.rAcq =>
    match st.ticket with
    | some _ => none
    | none =>
      some { (acquire_active st).2 with ticket := some (acquire_active st).1 }
  | CbEv.rRead rnd =>
    match st.ticket with
    | none => none
    | some v =>
      if (st.slot v).length = 0 then none
      else
        match hdrIdx ((st.slot v).getD (rnd % (st.slot v).length) 0) with
        | none => some st
        | some _ =>
          some { st with observed :=
            st.observed ++ [(st.slot v).getD (rnd % (st.slot v).length) 0] }
  | CbEv.rRel =>
    match st.ticket with
    | none => none
    | some v => some { release_active st v with ticket := none }

def runCb (hdrIdx : Nat → Option Nat) : List CbEv → CbState → Option CbState
  | [], st => some st
  | e :: t, st =>
    match cbStep hdrIdx st e with
    | none => none
    | some st2 => runCb hdrIdx t st2

/-- The state right after `cbreader_init`: version 0, empty vectors, zero
reader counts. -/
def cbInit : CbState := ⟨0, [], [], [], 0, 0, 0, none, [], []⟩

/-- A reachable interleaving: three edit/publish rounds bring the membership
sets to generation 2 (= {20, 21}, active in slot 2); a reader acquires at
version 2 and samples one id; the writer publishes twice more (the second
publish copies the new set {30, 31} into slot 2 — the very slot the reader
holds, since `get_pending_vec` never waited for it); the reader then samples a
second id mid-generation and releases. -/
def c1Trace : List CbEv :=
  [CbEv.wPend [10, 11], CbEv.wBump, CbEv.wCopyStart, CbEv.wCopyElem,
   CbEv.wCopyElem,
   CbEv.wPend [20, 21], CbEv.wBump, CbEv.wCopyStart, CbEv.wCopyElem,
   CbEv.wCopyElem,
   CbEv.rAcq, CbEv.rRead 0,
   CbEv.wBump, CbEv.wCopyStart, CbEv.wCopyElem, CbEv.wCopyElem,
   CbEv.wPend [30, 31], CbEv.wBump, CbEv.wCopyStart, CbEv.wCopyElem,
   CbEv.wCopyElem,
   CbEv.rRead 1, CbEv.rRel]

/-- A reachable interleaving for the staging grant: one edit/publish round,
then a reader acquires at version 1 (holding slot 1); two further publishes
advance the version to 3; the writer's next edit call is granted staging slot
`(3 + 1) % 3 = 1` because `get_pending_vec` only waits on slot `3 % 3 = 0`. -/
def c2Trace : List CbEv :=
  [CbEv.wPend [10, 11], CbEv.wBump, CbEv.wCopyStart, CbEv.wCopyElem,
   CbEv.wCopyElem,
   CbEv.rAcq,
   CbEv.wBump, CbEv.wCopyStart, CbEv.wCopyElem, CbEv.wCopyElem,
   CbEv.wBump, CbEv.wCopyStart, CbEv.wCopyElem, CbEv.wCopyElem,
   CbEv.wPend [30, 31]]

/-! ## C4: the acquire/sample/release reference-count discipline

Several readers run `cbreader_select_headers` concurrently; each call performs
`acquire_active` (capturing whatever version it observes), samples, and then
calls `release_active` with the captured version — on the empty-set return
path (line 300) as well as on the normal one (line 318).  The model below
tracks only the reference counts and the multiset of outstanding captured
versions; `acq v` takes the observed version as a parameter, which covers
every possible interleaving with the writer's version bumps.  Increments and
decrements use the source's fall-through switches. -/
inductive TOp
  | acq (v : Nat)
  | smp
  | rel (v : Nat)

structure TState where
  r0 : Int
  r1 : Int
  r2 : Int
  tickets : List Nat
deriving DecidableEq

/-- The fall-through increment of `acquire_active` on the three counts. -/
def TState.applyAcq (st : TState) (v : Nat) : TState :=
  match v % 3 with
  | 0 => { st with r0 := st.r0 + 1, r1 := st.r1 + 1, r2 := st.r2 + 1 }
  | 1 => { st with r1 := st.r1 + 1, r2 := st.r2 + 1 }
  | _ => { st with r2 := st.r2 + 1 }

/-- The fall-through decrement of `release_active`. -/
def TState.applyRel (st : TState) (v : Nat) : TState :=
  match v % 3 with
  | 0 => { st with r0 := st.r0 - 1, r1 := st.r1 - 1, r2 := st.r2 - 1 }
  | 1 => { st with r1 := st.r1 - 1, r2 := st.r2 - 1 }
  | _ => { st with r2 := st.r2 - 1 }

/-- One reader operation.  A release must name an outstanding captured
version (that is what `cbreader_select_headers` guarantees: each release is
given the version captured by its matching acquire); anything else is not a
behaviour of the code and yields `none`. -/
def tStep (st : TState) : TOp → Option TState
  | TOp.acq v => some { st.applyAcq v with tickets := st.tickets ++ [v] }
  | TOp.smp => some st
  | TOp.rel v =>
    if v ∈ st.tickets then
      some { st.applyRel v with tickets := st.tickets.erase v }
    else none

def tExec : List TOp → TState → Option TState
  | [], st => some st
  | o :: t, st =>
    match tStep st o with
    | none => none
    | some st2 => tExec t st2

def tInit : TState := ⟨0, 0, 0, []⟩

/-- Number of outstanding tickets whose fall-through increment touched slot
`j`: the switch in `acquire_active` touches slot `j` iff `v % 3 ≤ j`. -/
def cnt (j : Nat) (ts : List Nat) : Int :=
  ((ts.filter (fun v => decide (v % 3 ≤ j))).length : Int)

def TInv (st : TState) : Prop :=
  st.r0 = cnt 0 st.tickets ∧ st.r1 = cnt 1 st.tickets ∧
    st.r2 = cnt 2 st.tickets

/-! ## cbreader_prepare_rules (src/cbreader.cpp, lines 158-222)

The writer's `prepare_random`: draw `2 * num_rules` candidate ids
(`random_uint32() % rule_num` each), `std::sort` and `std::unique` them, mark
with `-1` the candidates already present in the staging slot by a sorted
merge, shuffle, then walk the shuffled array skipping `-1` entries and push up
to `num_rules` survivors into the staging slot, re-sorting it at the end.
The model is sequential (the writer is externally serialised and no reader
touches the staging slot): the staging slot handed out by `get_pending_vec`
is the `pending` parameter, and `std::shuffle` is an arbitrary permutation
parameter `shuf`.  Ids are `Int` as in the source (`std::vector<int>`), with
`-1` as the "already present" marker. -/
/-- The candidate draws: `rule_ids[i] = random_uint32() % rule_num`. -/
def drawIds (ruleNum : Nat) : Rng → Nat → List Int
  | _, 0 => []
  | g, k + 1 => ((g.next.1 % ruleNum : Nat) : Int) :: drawIds ruleNum g.next.2 k

/-- `std::unique` (collapse runs of equal adjacent entries, keeping the
first), split into a head/accumulator form. -/
def uniqAdjGo (a : Int) : List Int → List Int
  | [] => []
  | b :: t => if a = b then uniqAdjGo a t else b :: uniqAdjGo b t

def uniqAdj : List Int → List Int
  | [] => []
  | a :: t => a :: uniqAdjGo a t

/-- The cursor advance `while (cursor < rule_ids.size() &&
rule_ids[cursor] < pending_vec[i]) cursor++;` (lines 186-189), fuel-driven;
callers pass `cur.length + 1` fuel, which always suffices. -/
def advU (cur : List Int) (p : Int) : Nat → Nat → Nat
  | 0, cursor => cursor
  | fuel + 1, cursor =>
    if cursor < cur.length then
      if cur.getD cursor 0 < p then advU cur p fuel (cursor + 1) else cursor
    else cursor

/-- The marking merge (lines 183-196): for each pending entry advance the
cursor past smaller candidates; when the candidate under the cursor equals
the pending entry it is overwritten with `-1` (the cursor stays put, as in
the source); the loop breaks when the cursor reaches the end. -/
def markPresent (cur : List Int) (cursor : Nat) : List Int → List Int
  | [] => cur
  | p :: ps =>
    if advU cur p (cur.length + 1) cursor < cur.length then
      if cur.getD (advU cur p (cur.length + 1) cursor) 0 = p then
        markPresent (cur.set (advU cur p (cur.length + 1) cursor) (-1))
          (advU cur p (cur.length + 1) cursor) ps
      else markPresent cur (advU cur p (cur.length + 1) cursor) ps
    else cur

/-- The selection walk (lines 198-212): skip `-1` entries and take up to `n`
survivors. -/
def selectLoop : Nat → List Int → List Int
  | 0, _ => []
  | n + 1, l =>
    match l.dropWhile (fun v => decide (v = -1)) with
    | [] => []
    | v :: rest => v :: selectLoop n rest

/-- `cbreader_prepare_rules` (lines 158-222), sequential model.  Returns
`(out, data, staging)`: the returned count, the ids written to `data`, and the
staging slot contents after the final `std::sort`. -/
def cbreader_prepare_rules (ruleNum n : Nat) (pending : List Int) (g : Rng)
    (shuf : List Int → List Int) : Nat × List Int × List Int :=
  let ids := uniqAdj (List.insertionSort (fun a b => a ≤ b)
    (drawIds ruleNum g (n * 2)))
  let sel := selectLoop n (shuf (markPresent ids 0 pending))
  (sel.length, sel,
    List.insertionSort (fun a b => a ≤ b) (pending ++ sel))

/-! ## The binary corpus codec

`mapping::save_binary_format` (src/mapping.h, lines 274-316) and
`reader::read` (src/reader.h, lines 80-108).  `zstream` writes raw bytes:
every written integer — the `size_t` counts, the `int` priorities and ids,
the `uint32_t` bounds — goes through `operator<<(uint32_t)` and occupies four
bytes, and `operator<<(const char*)` writes the bare characters;
`read_u32` reads four bytes and `read_string(len)` reads `len` bytes.  The
stream is modelled as a list of typed tokens, one `u32` token per written
32-bit integer and one `str` token per written string; `read_u32` succeeds
only on a `u32` token and `read_string` only on a `str` token of the
requested length — a faithful abstraction of the byte stream whenever no run
of integer payload bytes spells out a magic string (true of the concrete
counterexample below). -/
inductive Tok
  | str (s : String)
  | u32 (n : Nat)
deriving DecidableEq

/-- One rule of the saved mapping: its priority and its `F` `(low, high)`
pairs. -/
structure BinRule where
  prio : Nat
  fields : List (Nat × Nat)
deriving DecidableEq

/-- One saved header: its `F` field values and the matching rule id. -/
structure BinHeader where
  vals : List Nat
  id : Nat
deriving DecidableEq

/-- `mapping::save_binary_format`: the string "ruledb", the rule count, `F`,
then per rule its priority followed by `F` `(low, high)` pairs; the string
"packetdb", the header count, then per header its `F` field values followed
by the single matching rule id. -/
def save_binary_format (F : Nat) (rules : List BinRule)
    (hdrs : List BinHeader) : List Tok :=
  [Tok.str "ruledb", Tok.u32 rules.length, Tok.u32 F] ++
  rules.flatMap (fun r => Tok.u32 r.prio ::
    r.fields.flatMap (fun p => [Tok.u32 p.1, Tok.u32 p.2])) ++
  [Tok.str "packetdb", Tok.u32 hdrs.length] ++
  hdrs.flatMap (fun h => h.vals.map Tok.u32 ++ [Tok.u32 h.id])

/-- `zstream::read_u32`. -/
def read_u32 : List Tok → Except String (Nat × List Tok)
  | Tok.u32 n :: t => Except.ok (n, t)
  | _ => Except.error "u32"

/-- `zstream::read_string(len)`. -/
def read_string (len : Nat) : List Tok → Except String (String × List Tok)
  | Tok.str s :: t =>
    if s.length = len then Except.ok (s, t) else Except.error "string length"
  | _ => Except.error "string"

/-- A run of `k` consecutive `u32` reads. -/
def read_u32s : Nat → List Tok → Except String (List Nat × List Tok)
  | 0, ts => Except.ok ([], ts)
  | k + 1, ts => do
    let r ← read_u32 ts
    let rs ← read_u32s k r.2
    return (r.1 :: rs.1, rs.2)

/-- `reader::read_rule` (src/reader.h, lines 36-46): `field_num` pairs of
`u32` — note that no priority is read. -/
def read_rule (fieldNum : Nat) (ts : List Tok) :
    Except String (List (Nat × Nat) × List Tok) := do
  let vs ← read_u32s (2 * fieldNum) ts
  return ((List.range fieldNum).map
    (fun i => (vs.1.getD (2 * i) 0, vs.1.getD (2 * i + 1) 0)), vs.2)

def read_rules : Nat → Nat → List Tok →
    Except String (List (List (Nat × Nat)) × List Tok)
  | 0, _, ts => Except.ok ([], ts)
  | k + 1, fieldNum, ts => do
    let r ← read_rule fieldNum ts
    let rs ← read_rules k fieldNum r.2
    return (r.1 :: rs.1, rs.2)

/-- `reader::read_header` (src/reader.h, lines 53-73): `field_num` field
values, then `idx_num = read_u32()`, then `idx_num` matching rule ids. -/
def read_header (fieldNum : Nat) (ts : List Tok) :
    Except String ((List Nat × List Nat) × List Tok) := do
  let vs ← read_u32s fieldNum ts
  let idxNum ← read_u32 vs.2
  let ids ← read_u32s idxNum.1 idxNum.2
  return ((vs.1, ids.1), ids.2)

def read_headers : Nat → Nat → List Tok →
    Except String (List (List Nat × List Nat) × List Tok)
  | 0, _, ts => Except.ok ([], ts)
  | k + 1, fieldNum, ts => do
    let h ← read_header fieldNum ts
    let hs ← read_headers k fieldNum h.2
    return (h.1 :: hs.1, hs.2)

/-- `reader::read` (src/reader.h, lines 80-108): expect "ruledb", read the
rule count and the field count, read the rules (without priorities), expect
"packetdb", read the header count and the headers. -/
def reader_read (ts : List Tok) :
    Except String (Nat × List (List (Nat × Nat)) ×
      List (List Nat × List Nat)) := do
  let s1 ← read_string 6 ts
  if s1.1 = "ruledb" then
    let ruleNum ← read_u32 s1.2
    let fieldNum ← read_u32 ruleNum.2
    let rs ← read_rules ruleNum.1 fieldNum.1 fieldNum.2
    let s2 ← read_string 8 rs.2
    if s2.1 = "packetdb" then
      let hdrNum ← read_u32 s2.2
      let hs ← read_headers hdrNum.1 fieldNum.1 hdrNum.2
      return (fieldNum.1, rs.1, hs.1)
    else Except.error "Cannot read file: header mismatch"
  else Except.error "Cannot read file: header mismatch"

theorem sortedDisjoint_nil : SortedDisjoint [] := rfl

theorem sortedDisjoint_singleton (r : Range) : SortedDisjoint [r] := rfl

theorem sortedDisjoint_cons_cons {a b : Range} {t : List Range} :
    SortedDisjoint (a :: b :: t) ↔ a.high < b.low ∧ SortedDisjoint (b :: t) := by
  simp [SortedDisjoint, sortedDisjointB]

theorem SortedDisjoint.tail {a : Range} {t : List Range}
    (h : SortedDisjoint (a :: t)) : SortedDisjoint t := by
  cases t with
  | nil => rfl
  | cons b t => exact (sortedDisjoint_cons_cons.mp h).2

/-- In a sorted disjoint list whose intervals satisfy `low ≤ high`, the head
interval ends strictly below every later interval. -/
theorem SortedDisjoint.head_lt {a : Range} {t : List Range}
    (h : SortedDisjoint (a :: t)) (hb : ∀ r ∈ t, r.low ≤ r.high) :
    ∀ r ∈ t, a.high < r.low := by
  induction t generalizing a with
  | nil => intro r hr; cases hr
  | cons b t ih =>
    intro r hr
    have hab := (sortedDisjoint_cons_cons.mp h).1
    have hbt := (sortedDisjoint_cons_cons.mp h).2
    rcases List.mem_cons.mp hr with rfl | hr
    · exact hab
    · have hblh : b.low ≤ b.high := hb b (List.mem_cons_self _ _)
      have := ih hbt (fun r hr => hb r (List.mem_cons_of_mem _ hr)) r hr
      omega

theorem inSet_nil (v : Nat) : ¬ InSet [] v := by
  rintro ⟨r, hr, -⟩; cases hr

theorem inSet_cons {r : Range} {t : List Range} {v : Nat} :
    InSet (r :: t) v ↔ (r.low ≤ v ∧ v ≤ r.high) ∨ InSet t v := by
  constructor
  · rintro ⟨x, hx, hxv⟩
    rcases List.mem_cons.mp hx with rfl | hx
    · exact Or.inl hxv
    · exact Or.inr ⟨x, hx, hxv⟩
  · rintro (h | ⟨x, hx, hxv⟩)
    · exact ⟨r, List.mem_cons_self _ _, h⟩
    · exact ⟨x, List.mem_cons_of_mem _ hx, hxv⟩

theorem inSet_append {a b : List Range} {v : Nat} :
    InSet (a ++ b) v ↔ InSet a v ∨ InSet b v := by
  constructor
  · rintro ⟨x, hx, hxv⟩
    rcases List.mem_append.mp hx with hx | hx
    · exact Or.inl ⟨x, hx, hxv⟩
    · exact Or.inr ⟨x, hx, hxv⟩
  · rintro (⟨x, hx, hxv⟩ | ⟨x, hx, hxv⟩)
    · exact ⟨x, List.mem_append_left _ hx, hxv⟩
    · exact ⟨x, List.mem_append_right _ hx, hxv⟩

theorem sortedDisjoint_cons_of_forall {a : Range} {t : List Range}
    (ht : SortedDisjoint t) (h : ∀ r ∈ t, a.high < r.low) :
    SortedDisjoint (a :: t) := by
  cases t with
  | nil => rfl
  | cons b t =>
    exact sortedDisjoint_cons_cons.mpr ⟨h b (List.mem_cons_self _ _), ht⟩

/-- Evaluation of `removeGo` on an interval skipped by the cursor. -/
theorem removeGo_skip {high fuel lc : Nat} {r : Range} {rest : List Range}
    (h : r.high < lc) :
    removeGo high (fuel + 1) lc (r :: rest) =
      (r :: (removeGo high fuel lc rest).1, (removeGo high fuel lc rest).2) := by
  simp [removeGo, h]

/-- Evaluation of `removeGo` when the requested region ends before the current
interval: the loop breaks. -/
theorem removeGo_break {high fuel lc : Nat} {r : Range} {rest : List Range}
    (h1 : ¬ r.high < lc) (h2 : high < r.low) :
    removeGo high (fuel + 1) lc (r :: rest) = (r :: rest, []) := by
  simp [removeGo, h1, h2]

/-- Evaluation of `removeGo` on an interval intersecting the requested region
(the two dead source guards simplify away since `min high r.high ≤ high`). -/
theorem removeGo_main {high fuel lc : Nat} {r : Range} {rest : List Range}
    (h1 : ¬ r.high < lc) (h2 : ¬ high < r.low) :
    removeGo high (fuel + 1) lc (r :: rest) =
      ((if max lc r.low = 0 ∨ max lc r.low - 1 < r.low then []
          else [Range.mk r.low (max lc r.low - 1)]) ++
        (removeGo high fuel (min high r.high + 1)
          ((if min high r.high < r.high then
              [Range.mk (min high r.high + 1) r.high] else []) ++ rest)).1,
       Range.mk (max lc r.low) (min high r.high) ::
        (removeGo high fuel (min high r.high + 1)
          ((if min high r.high < r.high then
              [Range.mk (min high r.high + 1) r.high] else []) ++ rest)).2) := by
  have hdead : ¬ min high r.high > high := Nat.not_lt.mpr (min_le_left _ _)
  simp [removeGo, h1, h2, hdead]

theorem removeGo_spec (high : Nat) :
    ∀ fuel lc (l : List Range),
      SortedDisjoint l → (∀ r ∈ l, r.low ≤ r.high) →
      l.length + 1 ≤ fuel → lc ≤ high + 1 →
      (lc = high + 1 → ∀ r ∈ l, high < r.low) →
      RSpec lc high l (removeGo high fuel lc l).1 (removeGo high fuel lc l).2 := by
  intro fuel
  induction fuel with
  | zero => intro lc l _ _ hf _ _; omega
  | succ n ih =>
    intro lc l hsd hbd hf hlc hbound
    cases l with
    | nil =>
      refine ⟨fun v => ?_, fun v => ?_, rfl, ?_, ?_, ?_⟩
      · simp only [removeGo]
        exact ⟨fun h => absurd h (inSet_nil v), fun h => absurd h.1 (inSet_nil v)⟩
      · simp only [removeGo]
        exact ⟨fun h => absurd h (inSet_nil v), fun h => absurd h.1 (inSet_nil v)⟩
      · simp only [removeGo]; intro x hx; cases hx
      · simp only [removeGo]; intro x hx; cases hx
      · simp only [removeGo]; intro x hx; cases hx
    | cons r rest =>
      have hrlh : r.low ≤ r.high := hbd r (List.mem_cons_self _ _)
      have hbdrest : ∀ x ∈ rest, x.low ≤ x.high :=
        fun x hx => hbd x (List.mem_cons_of_mem _ hx)
      have hrest_lt : ∀ x ∈ rest, r.high < x.low := hsd.head_lt hbdrest
      by_cases h1 : r.high < lc
      · -- skip branch
        rw [removeGo_skip h1]
        have hrec := ih lc rest hsd.tail hbdrest (by simp at hf ⊢; omega) hlc
          (fun he => fun x hx => hbound he x (List.mem_cons_of_mem _ hx))
        obtain ⟨ho, hs, hwf, hb, hp, hob⟩ := hrec
        refine ⟨fun v => ?_, fun v => ?_, ?_, ?_, ?_, hob⟩
        · rw [ho v]
          constructor
          · rintro ⟨hv, h2, h3⟩; exact ⟨inSet_cons.mpr (Or.inr hv), h2, h3⟩
          · rintro ⟨hv, h2, h3⟩
            rcases inSet_cons.mp hv with hr | ht
            · omega
            · exact ⟨ht, h2, h3⟩
        · rw [inSet_cons, hs v]
          constructor
          · rintro (hr | ⟨ht, hnot⟩)
            · exact ⟨inSet_cons.mpr (Or.inl hr), by omega⟩
            · exact ⟨inSet_cons.mpr (Or.inr ht), hnot⟩
          · rintro ⟨hv, hnot⟩
            rcases inSet_cons.mp hv with hr | ht
            · exact Or.inl hr
            · exact Or.inr ⟨ht, hnot⟩
        · refine sortedDisjoint_cons_of_forall hwf ?_
          intro x hx
          obtain ⟨y, hy, hy1, -⟩ := hp x hx
          have := hrest_lt y hy
          omega
        · intro x hx
          rcases List.mem_cons.mp hx with rfl | hx
          · exact hrlh
          · exact hb x hx
        · intro x hx
          rcases List.mem_cons.mp hx with rfl | hx
          · exact ⟨_, List.mem_cons_self _ _, le_refl _, le_refl _⟩
          · obtain ⟨y, hy, hys⟩ := hp x hx
            exact ⟨y, List.mem_cons_of_mem _ hy, hys⟩
      · by_cases h2 : high < r.low
        · -- break branch
          rw [removeGo_break h1 h2]
          have hvlow : ∀ v, InSet (r :: rest) v → high < v := by
            intro v hv
            rcases inSet_cons.mp hv with hr | ⟨y, hy, hyv⟩
            · omega
            · have := hrest_lt y hy; omega
          refine ⟨fun v => ?_, fun v => ?_, hsd, hbd, ?_, ?_⟩
          · constructor
            · intro h; exact absurd h (inSet_nil v)
            · rintro ⟨hv, -, h3⟩; have := hvlow v hv; omega
          · constructor
            · intro hv; have := hvlow v hv; exact ⟨hv, by omega⟩
            · exact fun h => h.1
          · exact fun x hx => ⟨x, hx, le_refl _, le_refl _⟩
          · intro x hx; cases hx
        · -- main branch: the interval intersects the requested region
          rw [removeGo_main h1 h2]
          have hlch : lc ≤ high := by
            rcases Nat.lt_or_ge lc (high + 1) with h | h
            · omega
            · exact absurd (hbound (by omega) r (List.mem_cons_self _ _)) h2
          set mn := max lc r.low with hmn_def
          set mx := min high r.high with hmx_def
          have hmn_or : mn = lc ∨ mn = r.low := by
            rw [hmn_def]; exact max_choice lc r.low
          have hmx_or : mx = high ∨ mx = r.high := by
            rw [hmx_def]; exact min_choice high r.high
          have hmn1 : lc ≤ mn := by rw [hmn_def]; exact le_max_left _ _
          have hmn2 : r.low ≤ mn := by rw [hmn_def]; exact le_max_right _ _
          have hmx1 : mx ≤ high := by rw [hmx_def]; exact min_le_left _ _
          have hmx2 : mx ≤ r.high := by rw [hmx_def]; exact min_le_right _ _
          have hlcr : lc ≤ r.high := by omega
          have hrlow : r.low ≤ high := by omega
          have hlcmx : lc ≤ mx := by omega
          have hrlmx : r.low ≤ mx := by omega
          have hmnmx : mn ≤ mx := by omega
          set inserted := (if mx < r.high then [Range.mk (mx + 1) r.high] else [])
            with hins_def
          set kept := (if mn = 0 ∨ mn - 1 < r.low then []
            else [Range.mk r.low (mn - 1)]) with hkept_def
          -- facts about the inserted fragment and the remaining list
          have hall : ∀ y ∈ inserted ++ rest, mx + 1 ≤ y.low := by
            intro y hy
            rcases List.mem_append.mp hy with hy | hy
            · rw [hins_def] at hy
              by_cases hc : mx < r.high
              · rw [if_pos hc] at hy
                rcases List.mem_cons.mp hy with rfl | hy
                · exact le_refl _
                · cases hy
              · rw [if_neg hc] at hy; cases hy
            · have := hrest_lt y hy; omega
          have hsd2 : SortedDisjoint (inserted ++ rest) := by
            rw [hins_def]
            by_cases hc : mx < r.high
            · rw [if_pos hc, List.singleton_append]
              refine sortedDisjoint_cons_of_forall hsd.tail ?_
              intro y hy
              show r.high < y.low
              exact hrest_lt y hy
            · rw [if_neg hc, List.nil_append]; exact hsd.tail
          have hbd2 : ∀ x ∈ inserted ++ rest, x.low ≤ x.high := by
            intro x hx
            rcases List.mem_append.mp hx with hx | hx
            · rw [hins_def] at hx
              by_cases hc : mx < r.high
              · rw [if_pos hc] at hx
                rcases List.mem_cons.mp hx with rfl | hx
                · show mx + 1 ≤ r.high
                  omega
                · cases hx
              · rw [if_neg hc] at hx; cases hx
            · exact hbdrest x hx
          -- membership transfer between (inserted ++ rest) and (r :: rest)
          have htoB : ∀ v, InSet (inserted ++ rest) v →
              InSet (r :: rest) v ∧ mx + 1 ≤ v := by
            intro v hv
            obtain ⟨y, hy, hy1, hy2⟩ := hv
            refine ⟨?_, le_trans (hall y hy) hy1⟩
            rcases List.mem_append.mp hy with hyi | hyr
            · rw [hins_def] at hyi
              by_cases hc : mx < r.high
              · rw [if_pos hc] at hyi
                rcases List.mem_cons.mp hyi with rfl | hyi
                · have hy1b : mx + 1 ≤ v := hy1
                  have hy2b : v ≤ r.high := hy2
                  exact inSet_cons.mpr (Or.inl ⟨by omega, hy2b⟩)
                · cases hyi
              · rw [if_neg hc] at hyi; cases hyi
            · exact ⟨y, List.mem_cons_of_mem _ hyr, hy1, hy2⟩
          have htoA : ∀ v, mx < v → InSet (r :: rest) v →
              InSet (inserted ++ rest) v := by
            intro v hv hmem
            rcases inSet_cons.mp hmem with hr | ht
            · have hc : mx < r.high := by omega
              rw [hins_def, if_pos hc]
              refine ⟨Range.mk (mx + 1) r.high,
                List.mem_append_left _ (List.mem_cons_self _ _), ?_, ?_⟩
              · show mx + 1 ≤ v
                omega
              · show v ≤ r.high
                omega
            · obtain ⟨y, hy, hys⟩ := ht
              exact ⟨y, List.mem_append_right _ hy, hys⟩
          -- the recursive pass over (inserted ++ rest) with cursor mx + 1
          have hrec : RSpec (mx + 1) high (inserted ++ rest)
              (removeGo high n (mx + 1) (inserted ++ rest)).1
              (removeGo high n (mx + 1) (inserted ++ rest)).2 := by
            by_cases hc : mx < r.high
            · -- the fragment was inserted: mx = high, and the next step breaks
              have hmxhigh : mx = high := by omega
              have hlen : 1 ≤ n := by
                simp only [List.length_cons] at hf
                omega
              obtain ⟨m, rfl⟩ : ∃ m, n = m + 1 := ⟨n - 1, by omega⟩
              rw [hins_def, if_pos hc, List.singleton_append]
              have hnoskip : ¬ (Range.mk (mx + 1) r.high).high < mx + 1 := by
                show ¬ r.high < mx + 1
                omega
              have hbrk : high < (Range.mk (mx + 1) r.high).low := by
                show high < mx + 1
                omega
              rw [removeGo_break hnoskip hbrk]
              have hset : SortedDisjoint (Range.mk (mx + 1) r.high :: rest) := by
                have h := hsd2
                rw [hins_def, if_pos hc, List.singleton_append] at h
                exact h
              have hsetb : ∀ x ∈ Range.mk (mx + 1) r.high :: rest,
                  x.low ≤ x.high := by
                have h := hbd2
                rw [hins_def, if_pos hc, List.singleton_append] at h
                exact h
              have hvhigh : ∀ v, InSet (Range.mk (mx + 1) r.high :: rest) v →
                  high < v := by
                intro v hv
                rcases inSet_cons.mp hv with hh | ⟨y, hy, hy1, -⟩
                · have h3 : mx + 1 ≤ v := hh.1
                  omega
                · have := hrest_lt y hy
                  omega
              refine ⟨fun v => ?_, fun v => ?_, hset, hsetb, ?_, ?_⟩
              · constructor
                · intro h; exact absurd h (inSet_nil v)
                · rintro ⟨hv, -, h3⟩; have := hvhigh v hv; omega
              · constructor
                · intro hv; exact ⟨hv, by have := hvhigh v hv; omega⟩
                · exact fun h => h.1
              · exact fun x hx => ⟨x, hx, le_refl _, le_refl _⟩
              · intro x hx; cases hx
            · -- no fragment inserted: recurse over the tail
              have hmxr : mx = r.high := by omega
              rw [hins_def, if_neg hc, List.nil_append]
              refine ih (mx + 1) rest hsd.tail hbdrest ?_ (by omega) ?_
              · simp only [List.length_cons] at hf
                omega
              · intro he y hy
                have := hrest_lt y hy
                omega
          obtain ⟨ho, hs, hwf, hb, hp, hob⟩ := hrec
          -- facts about the kept left fragment
          have hkept_cases : (kept = [] ∧ lc ≤ r.low) ∨
              (kept = [Range.mk r.low (mn - 1)] ∧ r.low < lc ∧ mn = lc ∧
                1 ≤ mn) := by
            rw [hkept_def]
            by_cases hc : mn = 0 ∨ mn - 1 < r.low
            · rw [if_pos hc]
              exact Or.inl ⟨rfl, by omega⟩
            · rw [if_neg hc]
              exact Or.inr ⟨rfl, by omega, by omega, by omega⟩
          refine ⟨fun v => ?_, fun v => ?_, ?_, ?_, ?_, ?_⟩
          · -- output membership
            rw [inSet_cons, ho v]
            constructor
            · rintro (hhd | ⟨hv, h3, h4⟩)
              · obtain ⟨hd1, hd2⟩ : mn ≤ v ∧ v ≤ mx := hhd
                exact ⟨inSet_cons.mpr (Or.inl ⟨by omega, by omega⟩),
                  by omega, by omega⟩
              · obtain ⟨hv2, -⟩ := htoB v hv
                exact ⟨hv2, by omega, h4⟩
            · rintro ⟨hv, h3, h4⟩
              by_cases hvmx : v ≤ mx
              · left
                rcases inSet_cons.mp hv with hr | ⟨y, hy, hy1, -⟩
                · have hr1 : r.low ≤ v := hr.1
                  exact ⟨show mn ≤ v by omega, show v ≤ mx from hvmx⟩
                · exact absurd hvmx (by have := hrest_lt y hy; omega)
              · right
                exact ⟨htoA v (by omega) hv, by omega, h4⟩
          · -- self membership
            rw [inSet_append, hs v]
            constructor
            · rintro (hk | ⟨hv, hnot⟩)
              · obtain ⟨y, hy, hy1, hy2⟩ := hk
                rcases hkept_cases with ⟨he, -⟩ | ⟨he, hlt, hmn_eq, h1m⟩
                · rw [he] at hy; cases hy
                · rw [he] at hy
                  rcases List.mem_cons.mp hy with rfl | hy
                  · have hy1b : r.low ≤ v := hy1
                    have hy2b : v ≤ mn - 1 := hy2
                    exact ⟨inSet_cons.mpr (Or.inl ⟨by omega, by omega⟩), by omega⟩
                  · cases hy
              · obtain ⟨hv2, hge⟩ := htoB v hv
                refine ⟨hv2, ?_⟩
                intro hcon
                exact hnot ⟨by omega, hcon.2⟩
            · rintro ⟨hv, hnot⟩
              by_cases hvlc : v < lc
              · left
                rcases inSet_cons.mp hv with hr | ⟨y, hy, hy1, -⟩
                · rcases hkept_cases with ⟨-, hle⟩ | ⟨he, hlt, hmn_eq, h1m⟩
                  · exact absurd hvlc (by have := hr.1; omega)
                  · rw [he]
                    refine ⟨Range.mk r.low (mn - 1), List.mem_cons_self _ _,
                      hr.1, ?_⟩
                    show v ≤ mn - 1
                    omega
                · exact absurd hvlc (by have := hrest_lt y hy; omega)
              · right
                refine ⟨htoA v (by omega) hv, ?_⟩
                intro hcon
                exact hnot ⟨by omega, hcon.2⟩
          · -- sortedness of the remaining list
            rcases hkept_cases with ⟨he, -⟩ | ⟨he, hlt, hmn_eq, h1m⟩
            · rw [he, List.nil_append]; exact hwf
            · rw [he, List.singleton_append]
              refine sortedDisjoint_cons_of_forall hwf ?_
              intro x hx
              obtain ⟨y, hy, hy1, -⟩ := hp x hx
              have := hall y hy
              show mn - 1 < x.low
              omega
          · -- interval validity of the remaining list
            intro x hx
            rcases List.mem_append.mp hx with hx | hx
            · rcases hkept_cases with ⟨he, -⟩ | ⟨he, hlt, hmn_eq, h1m⟩
              · rw [he] at hx; cases hx
              · rw [he] at hx
                rcases List.mem_cons.mp hx with rfl | hx
                · show r.low ≤ mn - 1
                  omega
                · cases hx
            · exact hb x hx
          · -- the remaining intervals live inside original intervals
            intro x hx
            rcases List.mem_append.mp hx with hx | hx
            · rcases hkept_cases with ⟨he, -⟩ | ⟨he, hlt, hmn_eq, h1m⟩
              · rw [he] at hx; cases hx
              · rw [he] at hx
                rcases List.mem_cons.mp hx with rfl | hx
                · refine ⟨r, List.mem_cons_self _ _, le_refl _, ?_⟩
                  show mn - 1 ≤ r.high
                  omega
                · cases hx
            · obtain ⟨y, hy, hy1, hy2⟩ := hp x hx
              rcases List.mem_append.mp hy with hyi | hyr
              · refine ⟨r, List.mem_cons_self _ _, ?_, ?_⟩
                · have := hall y (List.mem_append_left _ hyi)
                  omega
                · rw [hins_def] at hyi
                  by_cases hc : mx < r.high
                  · rw [if_pos hc] at hyi
                    rcases List.mem_cons.mp hyi with rfl | hyi
                    · exact hy2
                    · cases hyi
                  · rw [if_neg hc] at hyi; cases hyi
              · exact ⟨y, List.mem_cons_of_mem _ hyr, hy1, hy2⟩
          · -- output intervals are valid
            intro x hx
            rcases List.mem_cons.mp hx with rfl | hx
            · exact hmnmx
            · exact hob x hx

/-- The behavioural specification of `IntegerIntervalSet::remove`, instantiated
from `removeGo_spec` at the top-level cursor `low`. -/
theorem remove_spec (l : List Range) (lo hi : Nat)
    (hsd : SortedDisjoint l) (hbd : ∀ r ∈ l, r.low ≤ r.high) (hlh : lo ≤ hi) :
    RSpec lo hi l (IntegerIntervalSet.remove l lo hi).1
      (IntegerIntervalSet.remove l lo hi).2 :=
  removeGo_spec hi (l.length + 1) lo l hsd hbd (le_refl _) (by omega)
    (fun he => absurd he (by omega))

theorem random_uint32_range_eq :
    random_uint32_range = gen_uniform_random_uint32 := rfl

theorem gen_uniform_mem {low high : Nat} (g : Rng) (h : low ≤ high) :
    low ≤ (gen_uniform_random_uint32 low high g).1 ∧
      (gen_uniform_random_uint32 low high g).1 ≤ high := by
  unfold gen_uniform_random_uint32
  by_cases he : low = high
  · rw [if_pos he]; omega
  · rw [if_neg he]
    have hm : g.next.1 % (high - low) < high - low := Nat.mod_lt _ (by omega)
    refine ⟨?_, ?_⟩
    · show low ≤ g.next.1 % (high - low) + low
      omega
    · show g.next.1 % (high - low) + low ≤ high
      omega

theorem random_value_mem {l : List Range} (g : Rng)
    (hne : l ≠ []) (hbd : ∀ x ∈ l, x.low ≤ x.high) :
    InSet l (random_value l g).1 := by
  have hlen : ¬ l.length = 0 := fun h => hne (List.length_eq_zero.mp h)
  unfold random_value
  rw [if_neg hlen]
  show InSet l (gen_uniform_random_uint32
      (l.getD (gen_uniform_random_uint32 0 (l.length - 1) g).1 ⟨0, 0⟩).low
      (l.getD (gen_uniform_random_uint32 0 (l.length - 1) g).1 ⟨0, 0⟩).high
      (gen_uniform_random_uint32 0 (l.length - 1) g).2).1
  have hidx : (gen_uniform_random_uint32 0 (l.length - 1) g).1 ≤ l.length - 1 :=
    (gen_uniform_mem g (by omega)).2
  have hlt : (gen_uniform_random_uint32 0 (l.length - 1) g).1 < l.length := by
    omega
  have hmem : l.getD (gen_uniform_random_uint32 0 (l.length - 1) g).1 ⟨0, 0⟩ ∈ l := by
    rw [List.getD_eq_getElem l _ hlt]
    exact List.getElem_mem hlt
  have hbi := hbd _ hmem
  have hv := @gen_uniform_mem
    (l.getD (gen_uniform_random_uint32 0 (l.length - 1) g).1 ⟨0, 0⟩).low
    (l.getD (gen_uniform_random_uint32 0 (l.length - 1) g).1 ⟨0, 0⟩).high
    (gen_uniform_random_uint32 0 (l.length - 1) g).2 hbi
  exact ⟨_, hmem, hv.1, hv.2⟩

theorem fillN_mem (f : Rng → Nat × Rng) :
    ∀ k g, ∀ x ∈ (fillN f k g).1, ∃ g0, x = (f g0).1 := by
  intro k
  induction k with
  | zero => intro g x hx; cases hx
  | succ k ih =>
    intro g x hx
    have hx2 : x = (f g).1 ∨ x ∈ (fillN f k (f g).2).1 := by
      simpa [fillN] using hx
    rcases hx2 with rfl | hx2
    · exact ⟨g, rfl⟩
    · exact ih _ x hx2

/-- Claim-exclusion invariant of the per-field worker: starting at rule index
`i0` with a claim interval that excludes the ranges of all rules with index
below `i0`, every value generated for a rule whose claim was non-empty (i.e.
whose index did not join `non_unique`) lies outside the range of every
higher-priority rule. -/
theorem process_field_go_spec (num : Nat) (frsAll : List Range) :
    ∀ (suf : List Range) (i0 : Nat) (interval : List Range) (g : Rng),
      SortedDisjoint interval →
      (∀ x ∈ interval, x.low ≤ x.high) →
      (∀ j, j < suf.length → suf.getD j ⟨0, 0⟩ = frsAll.getD (i0 + j) ⟨0, 0⟩) →
      (∀ rg ∈ suf, rg.low ≤ rg.high) →
      (∀ v, InSet interval v → ∀ k, k < i0 →
        ¬ ((frsAll.getD k ⟨0, 0⟩).low ≤ v ∧ v ≤ (frsAll.getD k ⟨0, 0⟩).high)) →
      ∀ j, i0 + j ∉ (process_field_go num suf i0 interval g).nonUnique →
        ∀ v ∈ (process_field_go num suf i0 interval g).vals.getD j [],
          ∀ k, k < i0 + j →
            ¬ ((frsAll.getD k ⟨0, 0⟩).low ≤ v ∧ v ≤ (frsAll.getD k ⟨0, 0⟩).high) := by
  intro suf
  induction suf with
  | nil =>
    intro i0 interval g _ _ _ _ _ j _ v hv
    simp [process_field_go] at hv
  | cons fr rest ih =>
    intro i0 interval g hsd hbd hsuf hrb hinv j hnu v hv k hk
    have hfr : fr = frsAll.getD i0 ⟨0, 0⟩ := by
      have h0 := hsuf 0 (by simp)
      simpa using h0
    have hfrb : fr.low ≤ fr.high := hrb fr (List.mem_cons_self _ _)
    obtain ⟨hoMem, hsMem, hsWF, hsB, -, hoB⟩ :=
      remove_spec interval fr.low fr.high hsd hbd hfrb
    have hinv2 : ∀ w,
        InSet (IntegerIntervalSet.remove interval fr.low fr.high).1 w →
        ∀ k, k < i0 + 1 →
        ¬ ((frsAll.getD k ⟨0, 0⟩).low ≤ w ∧ w ≤ (frsAll.getD k ⟨0, 0⟩).high) := by
      intro w hw k hk2
      have h2 := (hsMem w).mp hw
      rcases Nat.lt_or_ge k i0 with hki | hki
      · exact hinv w h2.1 k hki
      · have hke : k = i0 := by omega
        subst hke
        rw [← hfr]
        exact fun hc => h2.2 hc
    have hsuf2 : ∀ j, j < rest.length →
        rest.getD j ⟨0, 0⟩ = frsAll.getD (i0 + 1 + j) ⟨0, 0⟩ := by
      intro j hj
      have h0 := hsuf (j + 1) (by simpa using Nat.succ_lt_succ hj)
      rw [List.getD_cons_succ] at h0
      have ha : i0 + (j + 1) = i0 + 1 + j := by omega
      rw [ha] at h0
      exact h0
    have hrb2 : ∀ rg ∈ rest, rg.low ≤ rg.high :=
      fun rg hrg => hrb rg (List.mem_cons_of_mem _ hrg)
    by_cases hcg : 0 < (IntegerIntervalSet.remove interval fr.low fr.high).2.length
    · simp only [process_field_go, if_pos hcg, List.nil_append] at hnu hv
      cases j with
      | zero =>
        rw [List.getD_cons_zero] at hv
        obtain ⟨g0, rfl⟩ := fillN_mem _ num g v hv
        have hne : (IntegerIntervalSet.remove interval fr.low fr.high).2 ≠ [] := by
          intro h0
          rw [h0] at hcg
          simp at hcg
        have hmm := random_value_mem g0 hne hoB
        have h2 := (hoMem _).mp hmm
        exact hinv _ h2.1 k (by omega)
      | succ j2 =>
        rw [List.getD_cons_succ] at hv
        have ha : i0 + (j2 + 1) = i0 + 1 + j2 := by omega
        rw [ha] at hnu hk
        exact ih (i0 + 1) (IntegerIntervalSet.remove interval fr.low fr.high).1
          (fillN (random_value (IntegerIntervalSet.remove interval fr.low fr.high).2) num g).2
          hsWF hsB hsuf2 hrb2 hinv2 j2 hnu v hv k hk
    · simp only [process_field_go, if_neg hcg, List.singleton_append] at hnu hv
      cases j with
      | zero =>
        have hmem0 : i0 + 0 ∈ i0 :: (process_field_go num rest (i0 + 1)
            (IntegerIntervalSet.remove interval fr.low fr.high).1
            (fillN (random_uint32_range fr.low fr.high) num g).2).nonUnique := by
          simp
        exact absurd hmem0 hnu
      | succ j2 =>
        rw [List.getD_cons_succ] at hv
        have ha : i0 + (j2 + 1) = i0 + 1 + j2 := by omega
        rw [ha] at hk
        have hnu2 : i0 + 1 + j2 ∉ (process_field_go num rest (i0 + 1)
            (IntegerIntervalSet.remove interval fr.low fr.high).1
            (fillN (random_uint32_range fr.low fr.high) num g).2).nonUnique := by
          intro h0
          exact hnu (by rw [ha]; exact List.mem_cons_of_mem _ h0)
        exact ih (i0 + 1) (IntegerIntervalSet.remove interval fr.low fr.high).1
          (fillN (random_uint32_range fr.low fr.high) num g).2
          hsWF hsB hsuf2 hrb2 hinv2 j2 hnu2 v hv k hk

/-- Top-level form of the per-field invariant: any value generated for a rule
that was resolved in this field (its index is outside the per-field
`non_unique` set) avoids every higher-priority rule's range in this field. -/
theorem process_field_spec (frs : List Range) (num : Nat) (g : Rng)
    (hrb : ∀ rg ∈ frs, rg.low ≤ rg.high) :
    ∀ j, j ∉ (process_field frs num g).nonUnique →
      ∀ v ∈ (process_field frs num g).vals.getD j [],
        ∀ k, k < j →
          ¬ ((frs.getD k ⟨0, 0⟩).low ≤ v ∧ v ≤ (frs.getD k ⟨0, 0⟩).high) := by
  intro j hnu v hv k hk
  have hinit : SortedDisjoint [Range.mk 0 4294967295] := sortedDisjoint_singleton _
  have hinitb : ∀ x ∈ [Range.mk 0 4294967295], x.low ≤ x.high := by
    intro x hx
    rcases List.mem_singleton.mp hx with rfl
    show (0 : Nat) ≤ 4294967295
    omega
  have h := process_field_go_spec num frs frs 0 [Range.mk 0 4294967295] g hinit
    hinitb (fun j hj => by rw [Nat.zero_add]) hrb
    (fun v hv k hk => absurd hk (by omega))
    j (by simpa [Nat.zero_add] using hnu) v (by simpa using hv) k
    (by omega)
  exact h

theorem foldl_inter_mem :
    ∀ (t : List (List Nat)) (acc : List Nat) (x : Nat),
      x ∈ t.foldl set_intersection acc → x ∈ acc ∧ ∀ l ∈ t, x ∈ l := by
  intro t
  induction t with
  | nil =>
    intro acc x hx
    exact ⟨hx, fun l hl => absurd hl (List.not_mem_nil _)⟩
  | cons b t ih =>
    intro acc x hx
    have h := ih (set_intersection acc b) x hx
    have h2 : x ∈ acc ∧ x ∈ b := by
      have h3 := h.1
      simpa [set_intersection, List.mem_filter] using h3
    refine ⟨h2.1, fun l hl => ?_⟩
    rcases List.mem_cons.mp hl with rfl | hl
    · exact h2.2
    · exact h.2 l hl

theorem fold_non_unique_mem {ls : List (List Nat)} {x : Nat}
    (hx : x ∈ fold_non_unique ls) : ∀ l ∈ ls, x ∈ l := by
  cases ls with
  | nil => intro l hl; cases hl
  | cons h t =>
    intro l hl
    have h2 := foldl_inter_mem t h x hx
    rcases List.mem_cons.mp hl with rfl | hl
    · exact h2.1
    · exact h2.2 l hl

theorem fillN_length (f : Rng → Nat × Rng) :
    ∀ k g, (fillN f k g).1.length = k := by
  intro k
  induction k with
  | zero => intro g; rfl
  | succ k ih => intro g; simp [fillN, ih]

theorem process_field_go_vals_length (num : Nat) :
    ∀ (suf : List Range) (i0 : Nat) (interval : List Range) (g : Rng) (j : Nat),
      j < suf.length →
      ((process_field_go num suf i0 interval g).vals.getD j []).length = num := by
  intro suf
  induction suf with
  | nil => intro i0 interval g j hj; simp at hj
  | cons fr rest ih =>
    intro i0 interval g j hj
    cases j with
    | zero =>
      by_cases hcg :
          0 < (IntegerIntervalSet.remove interval fr.low fr.high).2.length
      · simp [process_field_go, if_pos hcg, fillN_length]
      · simp [process_field_go, if_neg hcg, fillN_length]
    | succ j2 =>
      by_cases hcg :
          0 < (IntegerIntervalSet.remove interval fr.low fr.high).2.length
      · simp only [process_field_go, if_pos hcg, List.getD_cons_succ]
        exact ih _ _ _ j2 (by simpa using Nat.lt_of_succ_lt_succ hj)
      · simp only [process_field_go, if_neg hcg, List.getD_cons_succ]
        exact ih _ _ _ j2 (by simpa using Nat.lt_of_succ_lt_succ hj)

theorem getD_set_ne {α : Type} (l : List α) {j i : Nat} (a : α) (d : α)
    (h : j ≠ i) : (l.set j a).getD i d = l.getD i d := by
  simp [List.getD_eq_getElem?_getD, List.getElem?_set_ne h]

theorem getD_map_range {α : Type} (fn : Nat → α) (d : α) {n i : Nat}
    (h : i < n) : ((List.range n).map fn).getD i d = fn i := by
  rw [List.getD_eq_getElem?_getD, List.getElem?_map, List.getElem?_range h]
  rfl

/-- The retry loop only modifies the rows of rules it visits. -/
theorem foldl_retry_preserve (F : Nat) (rules : List (List Range)) :
    ∀ (nuL : List Nat) (acc : List (List (List Nat)) × Nat × Rng) (i : Nat),
      i ∉ nuL →
      (nuL.foldl (run_retry_step F rules) acc).1.getD i [] =
        acc.1.getD i [] := by
  intro nuL
  induction nuL with
  | nil => intro acc i _; rfl
  | cons idx t ih =>
    intro acc i hi
    have hne : idx ≠ i := fun he => hi (he ▸ List.mem_cons_self _ _)
    have hni : i ∉ t := fun h => hi (List.mem_cons_of_mem _ h)
    rw [List.foldl_cons, ih _ i hni]
    unfold run_retry_step
    by_cases hgp : (gen_packet F rules idx 5 acc.2.2).1
    · rw [if_pos hgp]
      exact getD_set_ne _ _ _ hne
    · rw [if_neg hgp]

/-- Rows of rules outside `non_unique` survive the retry loop untouched and
carry the per-field values copied by the update loop. -/
theorem run_mapping_row (F : Nat) (rules : List (List Range)) (flowNum : Nat)
    (rngs : List Rng) (g2 : Rng) (i : Nat) (hi : i < rules.length)
    (hnotnu : i ∉ run_nu F rules (flowNum / rules.length) rngs) :
    (run_mapping F rules flowNum rngs g2).rmap.getD i [] =
      (List.range (flowNum / rules.length)).map (fun j =>
        (List.range F).map (fun f =>
          ((field_result rules (flowNum / rules.length) rngs f).vals.getD i
            []).getD j 0)) := by
  show ((run_nu F rules (flowNum / rules.length) rngs).foldl
      (run_retry_step F rules)
      (run_rmap1 F rules (flowNum / rules.length) rngs, 0, g2)).1.getD i [] = _
  rw [foldl_retry_preserve F rules _ _ i hnotnu]
  show (run_rmap1 F rules (flowNum / rules.length) rngs).getD i [] = _
  unfold run_rmap1
  rw [getD_map_range _ _ hi, if_neg hnotnu]

/-- C5: for every rule `i` that the per-field phase resolved in field `f`
(its claim against the field-`f` IntervalSet returned a non-empty
sub-interval, i.e. `i` stayed outside that field's `non_unique` set), every
header emitted for rule `i` in the final mapping has a field-`f` value lying
outside the field-`f` range of every higher-priority rule `k < i`. -/
theorem C5_resolved_field_excludes_higher
    (F : Nat) (rules : List (List Range)) (flowNum : Nat)
    (rngs : List Rng) (g2 : Rng) (i f : Nat)
    (hb : ∀ r ∈ rules, ∀ rg ∈ r, rg.low ≤ rg.high)
    (hf : f < F) (hi : i < rules.length)
    (hres : i ∉ (field_result rules (flowNum / rules.length) rngs f).nonUnique) :
    ∀ hdr ∈ (run_mapping F rules flowNum rngs g2).rmap.getD i [],
      ∀ k, k < i →
        ¬ (((rules.getD k []).getD f ⟨0, 0⟩).low ≤ hdr.getD f 0 ∧
           hdr.getD f 0 ≤ ((rules.getD k []).getD f ⟨0, 0⟩).high) := by
  intro hdr hhdr k hk
  have hinotnu : i ∉ run_nu F rules (flowNum / rules.length) rngs := by
    intro hmem
    exact hres (fold_non_unique_mem hmem _
      (List.mem_map.mpr ⟨f, List.mem_range.mpr hf, rfl⟩))
  rw [run_mapping_row F rules flowNum rngs g2 i hi hinotnu] at hhdr
  obtain ⟨j, hj, rfl⟩ := List.mem_map.mp hhdr
  have hjn : j < flowNum / rules.length := List.mem_range.mp hj
  -- the field-f entry of the emitted header
  have hent : ((List.range F).map (fun f2 =>
      ((field_result rules (flowNum / rules.length) rngs f2).vals.getD i
        []).getD j 0)).getD f 0 =
      ((field_result rules (flowNum / rules.length) rngs f).vals.getD i
        []).getD j 0 := getD_map_range _ _ hf
  rw [hent]
  -- the row of per-field values for rule i has length num
  have hfl : (rules.map (fun r => r.getD f ⟨0, 0⟩)).length = rules.length := by
    simp
  have hrowlen : ((field_result rules (flowNum / rules.length) rngs f).vals.getD
      i []).length = flowNum / rules.length := by
    unfold field_result process_field
    exact process_field_go_vals_length _ _ _ _ _ i (by omega)
  have hjl : j < ((field_result rules (flowNum / rules.length) rngs
      f).vals.getD i []).length := by omega
  have hvmem : ((field_result rules (flowNum / rules.length) rngs f).vals.getD
      i []).getD j 0 ∈
      (field_result rules (flowNum / rules.length) rngs f).vals.getD i [] := by
    rw [List.getD_eq_getElem _ _ hjl]
    exact List.getElem_mem hjl
  -- bounds of the per-field ranges
  have hrb2 : ∀ rg ∈ rules.map (fun r => r.getD f ⟨0, 0⟩),
      rg.low ≤ rg.high := by
    intro rg hrg
    obtain ⟨r, hr, rfl⟩ := List.mem_map.mp hrg
    by_cases hfl2 : f < r.length
    · have hmem2 : r.getD f ⟨0, 0⟩ ∈ r := by
        rw [List.getD_eq_getElem r _ hfl2]
        exact List.getElem_mem hfl2
      exact hb r hr _ hmem2
    · rw [List.getD_eq_default r _ (by omega)]
  have hmain := process_field_spec (rules.map (fun r => r.getD f ⟨0, 0⟩))
    (flowNum / rules.length) (rngs.getD f zeroRng) hrb2 i hres _ hvmem k hk
  have hks : (rules.map (fun r => r.getD f ⟨0, 0⟩)).getD k ⟨0, 0⟩ =
      (rules.getD k []).getD f ⟨0, 0⟩ := by
    have hkr : k < rules.length := Nat.lt_trans hk hi
    have hkf : k < (rules.map (fun r => r.getD f ⟨0, 0⟩)).length := by omega
    rw [List.getD_eq_getElem _ _ hkf, List.getD_eq_getElem _ _ hkr]
    simp
  rw [hks] at hmain
  exact hmain

/-- C6: over a sorted, pairwise-disjoint interval list of valid intervals and
an inclusive request `[low, high]` with `low ≤ high`,
`IntegerIntervalSet::remove` returns a set covering exactly the intersection
of the old contents with `[low, high]`, and leaves `self` covering exactly the
old contents minus that intersection, still as a sorted, disjoint list of
valid intervals — uniformly over requests spanning several stored intervals,
partial overlaps, and requests identical to a stored interval. -/
theorem C6_remove_partitions (l : List Range) (lo hi : Nat)
    (hsd : SortedDisjoint l) (hbd : ∀ r ∈ l, r.low ≤ r.high) (hlh : lo ≤ hi) :
    (∀ v, InSet (IntegerIntervalSet.remove l lo hi).2 v ↔
        InSet l v ∧ lo ≤ v ∧ v ≤ hi) ∧
    (∀ v, InSet (IntegerIntervalSet.remove l lo hi).1 v ↔
        InSet l v ∧ ¬(lo ≤ v ∧ v ≤ hi)) ∧
    SortedDisjoint (IntegerIntervalSet.remove l lo hi).1 ∧
    (∀ x ∈ (IntegerIntervalSet.remove l lo hi).1, x.low ≤ x.high) ∧
    (∀ x ∈ (IntegerIntervalSet.remove l lo hi).2, x.low ≤ x.high) := by
  obtain ⟨h1, h2, h3, h4, h5, h6⟩ := remove_spec l lo hi hsd hbd hlh
  exact ⟨h1, h2, h3, h4, h6⟩

/-- Witness for C6 at a request spanning three stored intervals. -/
theorem C6_remove_partitions_witness :
    (SortedDisjoint [Range.mk 0 3, Range.mk 6 8, Range.mk 10 20] ∧
      (2 : Nat) ≤ 12) ∧
    InSet (IntegerIntervalSet.remove
      [Range.mk 0 3, Range.mk 6 8, Range.mk 10 20] 2 12).2 7 ∧
    ¬ InSet (IntegerIntervalSet.remove
      [Range.mk 0 3, Range.mk 6 8, Range.mk 10 20] 2 12).1 7 := by
  refine ⟨⟨by decide, by decide⟩, ?_, ?_⟩
  · exact ((C6_remove_partitions [Range.mk 0 3, Range.mk 6 8, Range.mk 10 20]
      2 12 (by decide) (by decide) (by decide)).1 7).mpr (by decide)
  · intro h
    have h2 := ((C6_remove_partitions [Range.mk 0 3, Range.mk 6 8,
      Range.mk 10 20] 2 12 (by decide) (by decide) (by decide)).2.1 7).mp h
    exact absurd h2.2 (by decide)

/-- Witness for C5: two single-field rules `[0,9]` and `[5,14]`; rule 1 is
resolved in field 0 (claiming `[10,14]`), and its emitted header value 10
avoids rule 0's range `[0,9]`. -/
theorem C5_witness :
    ((0 : Nat) < 1 ∧ (1 : Nat) < 2 ∧
      1 ∉ (field_result [[Range.mk 0 9], [Range.mk 5 14]] (2 / 2) [zeroRng]
        0).nonUnique ∧
      [10] ∈ (run_mapping 1 [[Range.mk 0 9], [Range.mk 5 14]] 2 [zeroRng]
        zeroRng).rmap.getD 1 []) ∧
    ¬ ((([[Range.mk 0 9], [Range.mk 5 14]].getD 0 []).getD 0 ⟨0, 0⟩).low ≤
        ([10] : List Nat).getD 0 0 ∧
       ([10] : List Nat).getD 0 0 ≤
        (([[Range.mk 0 9], [Range.mk 5 14]].getD 0 []).getD 0 ⟨0, 0⟩).high) := by
  refine ⟨⟨by decide, by decide, by decide, by decide⟩, ?_⟩
  exact C5_resolved_field_excludes_higher 1 [[Range.mk 0 9], [Range.mk 5 14]]
    2 [zeroRng] zeroRng 1 0 (by decide) (by decide) (by decide) (by decide)
    [10] (by decide) 0 (by decide)

/-- C8 (code bug, `mapping::run`): two single-field rules, rule 0 covering the
whole domain and rule 1 = `[5, 9]`, one header per rule.  Rule 1 is non-unique
in every field; its zero placeholder header is never discarded, so the emitted
row for rule 1 holds the placeholder `[0]` plus the retry header `[5]` — two
headers where the claim allows at most the single retry header.  The
unreachable count stays 0 here, but the final verification pass rejects the
placeholder (`mapping_check = false`), on which the source prints an error and
calls `exit(1)`, aborting the run. -/
theorem C8_run_keeps_placeholders :
    (run_mapping 1 [[Range.mk 0 4294967295], [Range.mk 5 9]] 2 [zeroRng]
        zeroRng).rmap.getD 1 [] = [[0], [5]] ∧
    (run_mapping 1 [[Range.mk 0 4294967295], [Range.mk 5 9]] 2 [zeroRng]
        zeroRng).unreachable = 0 ∧
    mapping_check 1 [[Range.mk 0 4294967295], [Range.mk 5 9]]
        (run_mapping 1 [[Range.mk 0 4294967295], [Range.mk 5 9]] 2 [zeroRng]
          zeroRng).rmap = false := by
  exact ⟨by decide, by decide, by decide⟩

/-- C7 (code bug, `gen_packet_in_rule`): for rule index 1, the check loop
`for (r = 0; r < rule_idx - 1; ++r)` runs zero times, so the candidate
`(2, 3, 4, 5, 6)` is accepted on the first try even though higher-priority
rule 0 contains it in every field — the claim requires every rule with index
below 1 to be checked and such a candidate rejected.  (The `mapping.h` variant
`gen_packet` additionally tests the candidate against rule `rule_idx` itself
instead of `r`.) -/
theorem C7_accepts_candidate_inside_higher_rule :
    (gen_packet_in_rule gpirSampleRules 1 5 zeroRng).1 = true ∧
    (gen_packet_in_rule gpirSampleRules 1 5 zeroRng).2.1 = [2, 3, 4, 5, 6] ∧
    hdr_matches_rule 5 gpirSampleRules 0 [2, 3, 4, 5, 6] = true := by
  exact ⟨by decide, by decide, by decide⟩

/-- C1 (code bug): along the reachable interleaving `c1Trace`, a single
`cbreader_select_headers` call concurrent with the final `cbreader_update`
returns the rule ids `[20, 31]` — id 20 belongs only to the pre-publish
membership set `{20, 21}` and id 31 only to the post-publish set `{30, 31}`,
so the sample is a mixture of the two sets, which the claim rules out.  (Every
rule id is given a header by `hdrIdx = some`.) -/
theorem C1_sample_observes_mixture :
    (runCb (fun r => some r) c1Trace cbInit).map CbState.observed =
      some [20, 31] ∧
    (20 ∈ ([20, 21] : List Nat) ∧ 31 ∉ ([20, 21] : List Nat)) ∧
    (31 ∈ ([30, 31] : List Nat) ∧ 20 ∉ ([30, 31] : List Nat)) := by
  exact ⟨by decide, by decide, by decide⟩

/-- C2 (code bug): along the reachable interleaving `c2Trace`, the second
staging grant hands the writer slot 1 while slot 1's reader count is still 1
(a reader from two generations back holds it): `get_pending_vec` waits on the
reader count of slot `version % 3` but returns slot `(version + 1) % 3`, so it
does not block until the returned staging slot has drained, and the writer
overwrites a slot whose reference count is nonzero. -/
theorem C2_stage_granted_while_held :
    (runCb (fun r => some r) c2Trace cbInit).map CbState.grants =
      some [(1, 0), (1, 1)] ∧ ((1 : Int) ≠ 0) := by
  exact ⟨by decide, by decide⟩

/-- C3 (code bug): a single `acquire_active` from the freshly initialised
state (version 0) returns a ticket carrying version 0 but leaves ALL THREE
reader counts at 1: the `switch` in the source has no `break`s, so for
`ver % 3 = 0` it falls through and increments the counts of slots 1 and 2 as
well, where the claim requires exactly slot 0's count to change. -/
theorem C3_acquire_increments_all_counts :
    (runCb (fun r => some r) [CbEv.rAcq] cbInit).map
      (fun st => (st.ticket, st.r0, st.r1, st.r2)) =
      some (some 0, 1, 1, 1) := by
  decide

theorem cnt_append_single (j : Nat) (ts : List Nat) (v : Nat) :
    cnt j (ts ++ [v]) = cnt j ts + (if v % 3 ≤ j then 1 else 0) := by
  by_cases h : v % 3 ≤ j
  · simp [cnt, List.filter_append, h]
  · simp [cnt, List.filter_append, h]

theorem cnt_erase (j : Nat) {ts : List Nat} {v : Nat} (h : v ∈ ts) :
    cnt j ts = cnt j (ts.erase v) + (if v % 3 ≤ j then 1 else 0) := by
  have hp : ts.Perm (v :: ts.erase v) := List.perm_cons_erase h
  have hf := (hp.filter (fun v => decide (v % 3 ≤ j))).length_eq
  by_cases hj : v % 3 ≤ j
  · rw [if_pos hj]
    simp [cnt, hf, List.filter_cons, hj]
  · rw [if_neg hj]
    simp [cnt, hf, List.filter_cons, hj]

theorem tStep_inv {st st2 : TState} {o : TOp} (hinv : TInv st)
    (hstep : tStep st o = some st2) : TInv st2 := by
  obtain ⟨h0, h1, h2⟩ := hinv
  cases o with
  | smp =>
    have he : st = st2 := by simpa [tStep] using hstep
    exact he ▸ ⟨h0, h1, h2⟩
  | acq v =>
    have he : { st.applyAcq v with tickets := st.tickets ++ [v] } = st2 := by
      simpa [tStep] using hstep
    subst he
    have h3 : v % 3 = 0 ∨ v % 3 = 1 ∨ v % 3 = 2 := by omega
    refine ⟨?_, ?_, ?_⟩ <;>
      (rcases h3 with h | h | h <;>
        simp [TState.applyAcq, h, cnt_append_single, h0, h1, h2])
  | rel v =>
    by_cases hv : v ∈ st.tickets
    · have he : { st.applyRel v with tickets := st.tickets.erase v } = st2 := by
        simpa [tStep, hv] using hstep
      subst he
      have hc0 := cnt_erase 0 hv
      have hc1 := cnt_erase 1 hv
      have hc2 := cnt_erase 2 hv
      have h3 : v % 3 = 0 ∨ v % 3 = 1 ∨ v % 3 = 2 := by omega
      refine ⟨?_, ?_, ?_⟩ <;>
        (rcases h3 with h | h | h <;>
          simp [TState.applyRel, h, h0, h1, h2] <;>
          simp [h] at hc0 hc1 hc2 <;> omega)
    · simp [tStep, hv] at hstep

theorem tExec_inv :
    ∀ (ops : List TOp) (st st2 : TState), TInv st →
      tExec ops st = some st2 → TInv st2 := by
  intro ops
  induction ops with
  | nil =>
    intro st st2 hinv h
    have he : st = st2 := by simpa [tExec] using h
    exact he ▸ hinv
  | cons o t ih =>
    intro st st2 hinv h
    cases hs : tStep st o with
    | none => simp [tExec, hs] at h
    | some stm =>
      simp only [tExec, hs] at h
      exact ih stm st2 (tStep_inv hinv hs) h

/-- C4: starting from all three reader counts at zero, along every sequence of
acquire/sample/release steps in which each release is given the version
captured by its matching acquire (as `cbreader_select_headers` does on both
its return paths), no reader count is negative at the end of any such
sequence — and since every prefix of an executable sequence is itself an
executable sequence, no count is ever negative — and once all outstanding
tickets have been released, every count is exactly zero again. -/
theorem C4_counts_nonneg_and_drain (ops : List TOp) (st : TState)
    (h : tExec ops tInit = some st) :
    (0 ≤ st.r0 ∧ 0 ≤ st.r1 ∧ 0 ≤ st.r2) ∧
    (st.tickets = [] → st.r0 = 0 ∧ st.r1 = 0 ∧ st.r2 = 0) := by
  obtain ⟨h0, h1, h2⟩ := tExec_inv ops tInit st ⟨rfl, rfl, rfl⟩ h
  constructor
  · refine ⟨?_, ?_, ?_⟩
    · rw [h0]; exact Int.natCast_nonneg _
    · rw [h1]; exact Int.natCast_nonneg _
    · rw [h2]; exact Int.natCast_nonneg _
  · intro he
    rw [he] at h0 h1 h2
    exact ⟨by simpa [cnt] using h0, by simpa [cnt] using h1,
      by simpa [cnt] using h2⟩

/-- Witness for C4: acquire at version 5, sample, release with the captured
version; all counts return to zero with no ticket outstanding. -/
theorem C4_witness :
    (0 ≤ (⟨0, 0, 0, []⟩ : TState).r0 ∧ 0 ≤ (⟨0, 0, 0, []⟩ : TState).r1 ∧
      0 ≤ (⟨0, 0, 0, []⟩ : TState).r2) ∧
    ((⟨0, 0, 0, []⟩ : TState).r0 = 0 ∧ (⟨0, 0, 0, []⟩ : TState).r1 = 0 ∧
      (⟨0, 0, 0, []⟩ : TState).r2 = 0) :=
  ⟨(C4_counts_nonneg_and_drain [TOp.acq 5, TOp.smp, TOp.rel 5] ⟨0, 0, 0, []⟩
      (by decide)).1,
   (C4_counts_nonneg_and_drain [TOp.acq 5, TOp.smp, TOp.rel 5] ⟨0, 0, 0, []⟩
      (by decide)).2 rfl⟩

theorem drawIds_mem {ruleNum : Nat} (hr : 0 < ruleNum) :
    ∀ (k : Nat) (g : Rng), ∀ x ∈ drawIds ruleNum g k,
      0 ≤ x ∧ x < (ruleNum : Int) := by
  intro k
  induction k with
  | zero => intro g x hx; cases hx
  | succ k ih =>
    intro g x hx
    simp only [drawIds] at hx
    rcases List.mem_cons.mp hx with rfl | hx
    · refine ⟨Int.natCast_nonneg _, ?_⟩
      have hm : g.next.1 % ruleNum < ruleNum := Nat.mod_lt _ hr
      exact_mod_cast hm
    · exact ih g.next.2 x hx

theorem uniqAdjGo_subset (a : Int) :
    ∀ (t : List Int), ∀ x ∈ uniqAdjGo a t, x ∈ t := by
  intro t
  induction t generalizing a with
  | nil => intro x hx; cases hx
  | cons b t ih =>
    intro x hx
    simp only [uniqAdjGo] at hx
    by_cases he : a = b
    · rw [if_pos he] at hx
      exact List.mem_cons_of_mem _ (ih a x hx)
    · rw [if_neg he] at hx
      rcases List.mem_cons.mp hx with rfl | hx
      · exact List.mem_cons_self _ _
      · exact List.mem_cons_of_mem _ (ih b x hx)

theorem uniqAdj_subset : ∀ (l : List Int), ∀ x ∈ uniqAdj l, x ∈ l := by
  intro l x hx
  cases l with
  | nil => cases hx
  | cons a t =>
    simp only [uniqAdj] at hx
    rcases List.mem_cons.mp hx with rfl | hx
    · exact List.mem_cons_self _ _
    · exact List.mem_cons_of_mem _ (uniqAdjGo_subset a t x hx)

theorem uniqAdjGo_sorted :
    ∀ (t : List Int) (a : Int), List.Sorted (· ≤ ·) (a :: t) →
      List.Sorted (· < ·) (a :: uniqAdjGo a t) := by
  intro t
  induction t with
  | nil => intro a _; simp [uniqAdjGo]
  | cons b t ih =>
    intro a hs
    have hab : a ≤ b := (List.sorted_cons.mp hs).1 b (List.mem_cons_self _ _)
    have hbt : List.Sorted (· ≤ ·) (b :: t) := (List.sorted_cons.mp hs).2
    simp only [uniqAdjGo]
    by_cases he : a = b
    · rw [if_pos he]
      apply ih a
      rw [List.sorted_cons]
      exact ⟨fun x hx => le_trans hab ((List.sorted_cons.mp hbt).1 x hx),
        (List.sorted_cons.mp hbt).2⟩
    · rw [if_neg he]
      have hlt : a < b := lt_of_le_of_ne hab he
      have hrec := ih b hbt
      rw [List.sorted_cons]
      refine ⟨?_, hrec⟩
      intro x hx
      rcases List.mem_cons.mp hx with rfl | hx
      · exact hlt
      · have hxt : x ∈ t := uniqAdjGo_subset b t x hx
        have hbx : b ≤ x := (List.sorted_cons.mp hbt).1 x hxt
        omega

theorem uniqAdj_sorted (l : List Int) (hs : List.Sorted (· ≤ ·) l) :
    List.Sorted (· < ·) (uniqAdj l) := by
  cases l with
  | nil => simp [uniqAdj]
  | cons a t => exact uniqAdjGo_sorted t a hs

theorem advU_props (cur : List Int) (p : Int) :
    ∀ (fuel cursor : Nat), cur.length ≤ fuel + cursor →
      cursor ≤ advU cur p fuel cursor ∧
      (∀ j, cursor ≤ j → j < advU cur p fuel cursor → cur.getD j 0 < p) ∧
      (advU cur p fuel cursor < cur.length →
        ¬ cur.getD (advU cur p fuel cursor) 0 < p) ∧
      (cursor ≤ cur.length → advU cur p fuel cursor ≤ cur.length) := by
  intro fuel
  induction fuel with
  | zero =>
    intro cursor hf
    simp only [advU]
    exact ⟨le_refl _, fun j h1 h2 => absurd h2 (by omega),
      fun h => absurd h (by omega), fun h => h⟩
  | succ fuel ih =>
    intro cursor hf
    simp only [advU]
    by_cases hc : cursor < cur.length
    · rw [if_pos hc]
      by_cases hlt : cur.getD cursor 0 < p
      · rw [if_pos hlt]
        obtain ⟨m1, m2, m3, m4⟩ := ih (cursor + 1) (by omega)
        refine ⟨by omega, ?_, m3, fun h => m4 (by omega)⟩
        intro j h1 h2
        rcases Nat.eq_or_lt_of_le h1 with he | h1
        · exact he ▸ hlt
        · exact m2 j (by omega) h2
      · rw [if_neg hlt]
        exact ⟨le_refl _, fun j h1 h2 => absurd h2 (by omega),
          fun _ => hlt, fun h => h⟩
    · rw [if_neg hc]
      exact ⟨le_refl _, fun j h1 h2 => absurd h2 (by omega),
        fun h => absurd h hc, fun h => h⟩

theorem getD_set_self {α : Type} (l : List α) {i : Nat} (a d : α)
    (h : i < l.length) : (l.set i a).getD i d = a := by
  rw [List.getD_eq_getElem _ _ (by simpa using h)]
  exact List.getElem_set_self _

theorem dropWhile_head_not {p : Int → Bool} :
    ∀ (l : List Int) (v : Int) (rest : List Int),
      l.dropWhile p = v :: rest → p v = false := by
  intro l
  induction l with
  | nil => intro v rest h; cases h
  | cons a t ih =>
    intro v rest h
    rw [List.dropWhile_cons] at h
    by_cases hp : p a = true
    · rw [if_pos hp] at h
      exact ih v rest h
    · rw [if_neg hp] at h
      cases h
      simpa using hp

theorem selectLoop_length :
    ∀ (n : Nat) (l : List Int), (selectLoop n l).length ≤ n := by
  intro n
  induction n with
  | zero => intro l; simp [selectLoop]
  | succ n ih =>
    intro l
    cases hd : l.dropWhile (fun v => decide (v = -1)) with
    | nil => simp [selectLoop, hd]
    | cons v rest =>
      simp only [selectLoop, hd, List.length_cons]
      have := ih rest
      omega

theorem selectLoop_mem :
    ∀ (n : Nat) (l : List Int), ∀ x ∈ selectLoop n l,
      x ∈ l ∧ ¬ x = -1 := by
  intro n
  induction n with
  | zero => intro l x hx; cases hx
  | succ n ih =>
    intro l x hx
    cases hd : l.dropWhile (fun v => decide (v = -1)) with
    | nil => rw [selectLoop, hd] at hx; cases hx
    | cons v rest =>
      rw [selectLoop, hd] at hx
      have hsub : (v :: rest).Sublist l := by
        rw [← hd]; exact List.dropWhile_sublist _
      rcases List.mem_cons.mp hx with rfl | hx
      · refine ⟨hsub.subset (List.mem_cons_self _ _), ?_⟩
        have hh := dropWhile_head_not l x rest hd
        exact of_decide_eq_false hh
      · have h2 := ih rest x hx
        have hsub2 : rest.Sublist (v :: rest) := List.sublist_cons_self v rest
        exact ⟨(hsub2.trans hsub).subset h2.1, h2.2⟩

theorem markPresent_getD :
    ∀ (pen cur : List Int) (cursor j : Nat),
      (markPresent cur cursor pen).getD j 0 = cur.getD j 0 ∨
        (markPresent cur cursor pen).getD j 0 = -1 := by
  intro pen
  induction pen with
  | nil => intro cur cursor j; exact Or.inl rfl
  | cons p ps ih =>
    intro cur cursor j
    simp only [markPresent]
    by_cases h1 : advU cur p (cur.length + 1) cursor < cur.length
    · rw [if_pos h1]
      by_cases h2 : cur.getD (advU cur p (cur.length + 1) cursor) 0 = p
      · rw [if_pos h2]
        rcases ih (cur.set (advU cur p (cur.length + 1) cursor) (-1))
          (advU cur p (cur.length + 1) cursor) j with h | h
        · by_cases hj : advU cur p (cur.length + 1) cursor = j
          · right
            rw [h, ← hj, getD_set_self _ _ _ h1]
          · left
            rw [h, getD_set_ne _ _ _ hj]
        · exact Or.inr h
      · rw [if_neg h2]
        exact ih cur _ j
    · rw [if_neg h1]
      exact Or.inl rfl

theorem markPresent_length :
    ∀ (pen cur : List Int) (cursor : Nat),
      (markPresent cur cursor pen).length = cur.length := by
  intro pen
  induction pen with
  | nil => intro cur cursor; rfl
  | cons p ps ih =>
    intro cur cursor
    simp only [markPresent]
    by_cases h1 : advU cur p (cur.length + 1) cursor < cur.length
    · rw [if_pos h1]
      by_cases h2 : cur.getD (advU cur p (cur.length + 1) cursor) 0 = p
      · rw [if_pos h2, ih]
        exact List.length_set _ _ _
      · rw [if_neg h2, ih]
    · rw [if_neg h1]

theorem markPresent_mem :
    ∀ (pen cur : List Int) (cursor : Nat), ∀ x ∈ markPresent cur cursor pen,
      x ∈ cur ∨ x = -1 := by
  intro pen cur cursor x hx
  obtain ⟨j, hj, he⟩ := List.getElem_of_mem hx
  have hjlen : j < cur.length := by
    rw [← markPresent_length pen cur cursor]
    exact hj
  have hgd : (markPresent cur cursor pen).getD j 0 = x := by
    rw [List.getD_eq_getElem _ _ hj]
    exact he
  rcases markPresent_getD pen cur cursor j with h | h
  · left
    have hx2 : x = cur.getD j 0 := by rw [← hgd, h]
    rw [hx2, List.getD_eq_getElem _ _ hjlen]
    exact List.getElem_mem hjlen
  · right
    rw [← hgd, h]

/-- Completeness of the marking merge: when the candidate array holds strictly
increasing non-marker values and the pending list is strictly increasing and
non-negative, every pending value is marked out of the final array. -/
theorem markPresent_not_mem :
    ∀ (pen cur : List Int) (cursor : Nat),
      (∀ i j, cursor ≤ i → i < j → j < cur.length →
        cur.getD i 0 ≠ -1 → cur.getD j 0 ≠ -1 →
        cur.getD i 0 < cur.getD j 0) →
      (∀ j, j < cursor → j < cur.length → ∀ q ∈ pen, cur.getD j 0 < q) →
      List.Sorted (· < ·) pen →
      (∀ q ∈ pen, (0 : Int) ≤ q) →
      cursor ≤ cur.length →
      ∀ q ∈ pen, ∀ j, j < cur.length →
        (markPresent cur cursor pen).getD j 0 ≠ q := by
  intro pen
  induction pen with
  | nil => intro cur cursor _ _ _ _ _ q hq; cases hq
  | cons p ps ih =>
    intro cur cursor hA hB hsort hpos hcl q hq j hj
    simp only [markPresent]
    obtain ⟨a1, a2, a3, a4⟩ := advU_props cur p (cur.length + 1) cursor (by omega)
    set c := advU cur p (cur.length + 1) cursor with hc_def
    have hcle : c ≤ cur.length := a4 hcl
    have hppos : (0 : Int) ≤ p := hpos p (List.mem_cons_self _ _)
    have hpq : ∀ q2 ∈ ps, p < q2 := (List.sorted_cons.mp hsort).1
    by_cases h1 : c < cur.length
    · rw [if_pos h1]
      by_cases h2 : cur.getD c 0 = p
      · rw [if_pos h2]
        rcases List.mem_cons.mp hq with rfl | hq
        · rcases markPresent_getD ps (cur.set c (-1)) c j with h | h
          · rw [h]
            by_cases hjc : c = j
            · rw [← hjc, getD_set_self _ _ _ h1]
              omega
            · rw [getD_set_ne _ _ _ hjc]
              rcases Nat.lt_or_ge j cursor with hjcur | hjcur
              · have := hB j hjcur hj q (List.mem_cons_self _ _)
                omega
              · rcases Nat.lt_or_ge j c with hjc2 | hjc2
                · have := a2 j hjcur hjc2
                  omega
                · have hcj : c < j := by omega
                  by_cases hne : cur.getD j 0 = -1
                  · omega
                  · have := hA c j (by omega) hcj hj (by omega) hne
                    omega
          · rw [h]
            omega
        · refine ih (cur.set c (-1)) c ?_ ?_ (List.sorted_cons.mp hsort).2
            (fun q2 hq2 => hpos q2 (List.mem_cons_of_mem _ hq2))
            (by simpa using hcle) q hq j (by simpa using hj)
          · intro i j2 hi hij hj2 hne1 hne2
            have hj2l : j2 < cur.length := by simpa using hj2
            by_cases hic : c = i
            · rw [← hic, getD_set_self _ _ _ h1] at hne1
              omega
            · rw [getD_set_ne _ _ _ hic] at hne1
              have hjc2 : c ≠ j2 := by omega
              rw [getD_set_ne _ _ _ hjc2] at hne2
              rw [getD_set_ne _ _ _ hic, getD_set_ne _ _ _ hjc2]
              exact hA i j2 (by omega) hij hj2l hne1 hne2
          · intro j2 hj2c hj2l q2 hq2
            have hj2len : j2 < cur.length := by simpa using hj2l
            have hjc2 : c ≠ j2 := by omega
            rw [getD_set_ne _ _ _ hjc2]
            rcases Nat.lt_or_ge j2 cursor with hjcur | hjcur
            · exact hB j2 hjcur hj2len q2 (List.mem_cons_of_mem _ hq2)
            · have := a2 j2 hjcur hj2c
              have := hpq q2 hq2
              omega
      · rw [if_neg h2]
        have hgtp : p < cur.getD c 0 := by
          have := a3 h1
          omega
        rcases List.mem_cons.mp hq with rfl | hq
        · rcases markPresent_getD ps cur c j with h | h
          · rw [h]
            rcases Nat.lt_or_ge j cursor with hjcur | hjcur
            · have := hB j hjcur hj q (List.mem_cons_self _ _)
              omega
            · rcases Nat.lt_or_ge j c with hjc2 | hjc2
              · have := a2 j hjcur hjc2
                omega
              · rcases Nat.eq_or_lt_of_le hjc2 with he | hlt2
                · have heq : cur.getD j 0 = cur.getD c 0 := by rw [← he]
                  omega
                · by_cases hne : cur.getD j 0 = -1
                  · omega
                  · have := hA c j (by omega) hlt2 hj (by omega) hne
                    omega
          · rw [h]
            omega
        · refine ih cur c ?_ ?_ (List.sorted_cons.mp hsort).2
            (fun q2 hq2 => hpos q2 (List.mem_cons_of_mem _ hq2)) hcle q hq j hj
          · intro i j2 hi hij hj2 hne1 hne2
            exact hA i j2 (by omega) hij hj2 hne1 hne2
          · intro j2 hj2c hj2l q2 hq2
            rcases Nat.lt_or_ge j2 cursor with hjcur | hjcur
            · exact hB j2 hjcur hj2l q2 (List.mem_cons_of_mem _ hq2)
            · have := a2 j2 hjcur hj2c
              have := hpq q2 hq2
              omega
    · rw [if_neg h1]
      rcases Nat.lt_or_ge j cursor with hjcur | hjcur
      · have := hB j hjcur hj q hq
        omega
      · have := a2 j hjcur (by omega)
        rcases List.mem_cons.mp hq with rfl | hq2
        · omega
        · have := hpq q hq2
          omega

/-- C9: `cbreader_prepare_rules(h, n)` returns a count `k` with `0 ≤ k ≤ n`;
every reported id lies in `[0, rule_count)`, was absent from the (sorted,
duplicate-free) staging slot immediately before the call, and is present in
the staging slot — which is sorted again — immediately after; `k` may fall
short of `n` because only `2 n` candidates are drawn before dedup and
subtraction of already-present ids. -/
theorem C9_prepare_rules_contract (ruleNum n : Nat) (pending : List Int)
    (g : Rng) (shuf : List Int → List Int)
    (hr : 0 < ruleNum)
    (hps : List.Sorted (· < ·) pending)
    (hpn : ∀ x ∈ pending, (0 : Int) ≤ x)
    (hsh : ∀ l, (shuf l).Perm l) :
    (cbreader_prepare_rules ruleNum n pending g shuf).1 ≤ n ∧
    (cbreader_prepare_rules ruleNum n pending g shuf).1 =
      (cbreader_prepare_rules ruleNum n pending g shuf).2.1.length ∧
    (∀ x ∈ (cbreader_prepare_rules ruleNum n pending g shuf).2.1,
      0 ≤ x ∧ x < (ruleNum : Int) ∧ x ∉ pending ∧
      x ∈ (cbreader_prepare_rules ruleNum n pending g shuf).2.2) ∧
    List.Sorted (· ≤ ·)
      (cbreader_prepare_rules ruleNum n pending g shuf).2.2 := by
  set ids := uniqAdj (List.insertionSort (fun a b => a ≤ b)
    (drawIds ruleNum g (n * 2))) with hids_def
  set marked := markPresent ids 0 pending with hmarked_def
  set sel := selectLoop n (shuf marked) with hsel_def
  have hids_sorted : List.Sorted (· < ·) ids := by
    rw [hids_def]
    exact uniqAdj_sorted _ (List.sorted_insertionSort _ _)
  have hids_vals : ∀ x ∈ ids, 0 ≤ x ∧ x < (ruleNum : Int) := by
    rw [hids_def]
    intro x hx
    have h1 := uniqAdj_subset _ x hx
    have h2 : x ∈ drawIds ruleNum g (n * 2) :=
      ((List.perm_insertionSort _ _).mem_iff).mp h1
    exact drawIds_mem hr (n * 2) g x h2
  have hA : ∀ i j, 0 ≤ i → i < j → j < ids.length →
      ids.getD i 0 ≠ -1 → ids.getD j 0 ≠ -1 →
      ids.getD i 0 < ids.getD j 0 := by
    intro i j _ hij hjl _ _
    have hil : i < ids.length := by omega
    rw [List.getD_eq_getElem _ _ hil, List.getD_eq_getElem _ _ hjl]
    exact List.pairwise_iff_getElem.mp hids_sorted i j hil hjl hij
  have hmarked_q : ∀ q ∈ pending, ∀ j, j < ids.length →
      marked.getD j 0 ≠ q := by
    rw [hmarked_def]
    exact markPresent_not_mem pending ids 0 hA
      (fun j hj _ _ _ => absurd hj (Nat.not_lt_zero j)) hps hpn (by omega)
  have hmarked_notmem : ∀ q ∈ pending, q ∉ marked := by
    intro q hq hmem
    obtain ⟨j, hj, he⟩ := List.getElem_of_mem hmem
    have hjl : j < ids.length := by
      rw [hmarked_def] at hj
      rwa [markPresent_length] at hj
    have hq2 : marked.getD j 0 = q := by
      rw [List.getD_eq_getElem _ _ hj]
      exact he
    exact hmarked_q q hq j hjl hq2
  have hselp : ∀ x ∈ sel, 0 ≤ x ∧ x < (ruleNum : Int) ∧ x ∉ pending := by
    rw [hsel_def]
    intro x hx
    obtain ⟨hxl, hxne⟩ := selectLoop_mem n _ x hx
    have hxm : x ∈ marked := ((hsh marked).mem_iff).mp hxl
    have hxm2 : x ∈ markPresent ids 0 pending := by
      rw [hmarked_def] at hxm
      exact hxm
    rcases markPresent_mem pending ids 0 x hxm2 with hxi | hxeq
    · have hv := hids_vals x hxi
      exact ⟨hv.1, hv.2, fun hmem => hmarked_notmem x hmem hxm⟩
    · exact absurd hxeq hxne
  refine ⟨?_, rfl, ?_, ?_⟩
  · exact selectLoop_length n (shuf marked)
  · intro x hx
    have hx2 : x ∈ sel := hx
    obtain ⟨h1, h2, h3⟩ := hselp x hx2
    refine ⟨h1, h2, h3, ?_⟩
    exact ((List.perm_insertionSort _ _).mem_iff).mpr
      (List.mem_append_right _ hx2)
  · exact List.sorted_insertionSort _ _

/-- Witness for C9: ten rules, `n = 2`, staging slot `[3]`, all draws 0: one
new id (0) is reported, absent before and present (sorted) after. -/
theorem C9_witness :
    (cbreader_prepare_rules 10 2 [3] zeroRng (fun l => l)).1 ≤ 2 ∧
    ((0 : Int) ∉ ([3] : List Int) ∧
      (0 : Int) ∈ (cbreader_prepare_rules 10 2 [3] zeroRng (fun l => l)).2.2) ∧
    List.Sorted (· ≤ ·)
      (cbreader_prepare_rules 10 2 [3] zeroRng (fun l => l)).2.2 := by
  have h := C9_prepare_rules_contract 10 2 [3] zeroRng (fun l => l)
    (by decide) (by simp) (by decide) (fun l => List.Perm.refl l)
  have h0 := h.2.2.1 0 (by decide)
  exact ⟨h.1, ⟨h0.2.2.1, h0.2.2.2⟩, h.2.2.2⟩

/-- C10 (code bug): the two sides of the codec disagree on the layout.
`save_binary_format` writes each rule as a priority followed by its
`(low, high)` pairs and each header as its field values followed by a single
matching rule id, while `reader::read` never reads a priority (consuming the
pair (priority, low) as the field bounds) and expects a count of matching ids
after each header's values.  On the one-rule, one-field, one-header mapping
below (priority 5, field range [2,7], header [3] matching rule 0) the reader
desynchronises and fails where the layout places the value `high = 7` but the
reader expects the "packetdb" magic — instead of returning the saved data. -/
theorem C10_roundtrip_fails :
    reader_read (save_binary_format 1 [⟨5, [(2, 7)]⟩] [⟨[3], 0⟩]) =
      Except.error "string" := by
  rfl

end CBMapper
